import Mathlib

/-!
Verification development for the cppfront front-end core: a shallow
embedding of its data model (source positions, tokens, errors, raw-string
segment reconstruction, AST expression/statement/declaration nodes,
capture groups, the metafunction layer) together with theorems about the
lexing, parsing and reflection behaviour.

The repository ships declaration-only headers for this core; structure
layouts below are translated from those declarations, and behaviour of
the declared-but-not-defined functions is modelled from the accompanying
specification, with a note on each such definition.
-/

namespace CppfrontSpec

/-- Translated from source `source_position`: one-based (line, column). -/
structure source_position where
  lineno : Int
  colno : Int
  deriving DecidableEq, Repr

/-- Translated from source `lexeme`: the type of a token. -/
inductive lexeme where
  | SlashEq | Slash | LeftShiftEq | LeftShift | Spaceship | LessEq | Less
  | RightShiftEq | RightShift | GreaterEq | Greater | PlusPlus | PlusEq | Plus
  | MinusMinus | MinusEq | Arrow | Minus | LogicalOrEq | LogicalOr | PipeEq
  | Pipe | LogicalAndEq | LogicalAnd | MultiplyEq | Multiply | ModuloEq
  | Modulo | AmpersandEq | Ampersand | CaretEq | Caret | TildeEq | Tilde
  | EqualComparison | Assignment | NotEqualComparison | Not | LeftBrace
  | RightBrace | LeftParen | RightParen | LeftBracket | RightBracket | Scope
  | Colon | Semicolon | Comma | Dot | Ellipsis | QuestionMark | At | Dollar
  | FloatLiteral | BinaryLiteral | DecimalLiteral | HexadecimalLiteral
  | StringLiteral | CharacterLiteral | UserDefinedLiteralSuffix | Keyword
  | Cpp1MultiKeyword | Cpp2FixedType | Identifier | None
  deriving DecidableEq, Repr

/-- Translated from source `is_literal(lexeme)`; modelled from the spec:
the literal lexeme kinds (the body is not in the shipped headers). -/
def is_literal (l : lexeme) : Bool :=
  match l with
  | .FloatLiteral | .BinaryLiteral | .DecimalLiteral | .HexadecimalLiteral
  | .StringLiteral | .CharacterLiteral | .UserDefinedLiteralSuffix => true
  | _ => false

/-- Translated from source `token`: a borrowed view of a span of source
text (`sv`), a position, and a mutable lexeme kind. The view is modelled
as the list of characters of the referenced span. -/
structure token where
  sv : List Char
  pos : source_position
  lex_type : lexeme
  deriving DecidableEq, Repr

/-- Modelled from the spec: `token::operator==` is not defined in the
shipped headers; the spec says token equality compares by textual
content. -/
def token_eq (t1 t2 : token) : Bool :=
  t1.sv == t2.sv

/-- Translated from source `comment`: kind, start/end positions, text,
and an "already printed" flag. -/
structure comment where
  kind : Bool
  start : source_position
  end_ : source_position
  text : List Char
  dbg_was_printed : Bool
  deriving DecidableEq, Repr

/-- Translated from source `error_entry`: position, message, internal
flag, and fallback flag. -/
structure error_entry where
  where_ : source_position
  msg : String
  internal : Bool
  fallback : Bool
  deriving DecidableEq, Repr

/-- Modelled from the spec: `error_entry::operator==` is not defined in
the shipped headers; the spec says duplicate error records have the same
position, message and flags. -/
def error_entry_eq (e1 e2 : error_entry) : Bool :=
  e1.where_ == e2.where_ && e1.msg == e2.msg &&
  e1.internal == e2.internal && e1.fallback == e2.fallback

/-- Modelled from the spec: appending to the diagnostics list coalesces
duplicate error records (same position, message and flags). -/
def add_error (es : List error_entry) (e : error_entry) : List error_entry :=
  if es.any (fun x => error_entry_eq x e) then es else es ++ [e]

/-! ## Lexer: character classification

Translated from the source grammar comments in the common header
(`is_binary_digit` .. `is_identifier_continue`); the function bodies are
not in the shipped headers, so each follows its grammar comment. -/

/-- The digit separator character (apostrophe, code point 39). -/
def digit_separator : Char := Char.ofNat 39

def is_binary_digit (c : Char) : Bool :=
  c == '0' || c == '1'

def is_digit (c : Char) : Bool :=
  '0' ≤ c && c ≤ '9'

def is_hexadecimal_digit (c : Char) : Bool :=
  is_digit c || ('A' ≤ c && c ≤ 'F')

def is_nondigit (c : Char) : Bool :=
  ('a' ≤ c && c ≤ 'z') || ('A' ≤ c && c ≤ 'Z') || c == '_'

def is_identifier_start (c : Char) : Bool :=
  is_nondigit c

def is_identifier_continue (c : Char) : Bool :=
  is_digit c || is_nondigit c

/-- Translated from source `is_separator_or`: the given class or a digit
separator. -/
def is_separator_or (pred : Char → Bool) (c : Char) : Bool :=
  pred c || c == digit_separator

/-! ## Lexer: operators and punctuation

Modelled from the spec: the lexer recognizes all operators/punctuation by
longest match (the example order in the spec: three-character operators
before two-character before one-character). The table lists each
operator string with its lexeme, translated from the `lexeme`
enumeration of the source, ordered so that the first prefix match is the
longest match. -/

def operator_table : List (List Char × lexeme) :=
  [ ("<<=".toList, .LeftShiftEq), ("<<".toList, .LeftShift),
    ("<=>".toList, .Spaceship), ("<=".toList, .LessEq), ("<".toList, .Less),
    (">>=".toList, .RightShiftEq), (">>".toList, .RightShift),
    (">=".toList, .GreaterEq), (">".toList, .Greater),
    ("++".toList, .PlusPlus), ("+=".toList, .PlusEq), ("+".toList, .Plus),
    ("--".toList, .MinusMinus), ("-=".toList, .MinusEq),
    ("->".toList, .Arrow), ("-".toList, .Minus),
    ("||=".toList, .LogicalOrEq), ("||".toList, .LogicalOr),
    ("|=".toList, .PipeEq), ("|".toList, .Pipe),
    ("&&=".toList, .LogicalAndEq), ("&&".toList, .LogicalAnd),
    ("&=".toList, .AmpersandEq), ("&".toList, .Ampersand),
    ("*=".toList, .MultiplyEq), ("*".toList, .Multiply),
    ("/=".toList, .SlashEq), ("/".toList, .Slash),
    ("%=".toList, .ModuloEq), ("%".toList, .Modulo),
    ("^=".toList, .CaretEq), ("^".toList, .Caret),
    ("~=".toList, .TildeEq), ("~".toList, .Tilde),
    ("==".toList, .EqualComparison), ("=".toList, .Assignment),
    ("!=".toList, .NotEqualComparison), ("!".toList, .Not),
    ("\x7b".toList, .LeftBrace), ("\x7d".toList, .RightBrace),
    ("(".toList, .LeftParen), (")".toList, .RightParen),
    ("[".toList, .LeftBracket), ("]".toList, .RightBracket),
    ("::".toList, .Scope), (":".toList, .Colon), (";".toList, .Semicolon),
    (",".toList, .Comma), ("...".toList, .Ellipsis), (".".toList, .Dot),
    ("?".toList, .QuestionMark), ("@".toList, .At), ("$".toList, .Dollar) ]

/-- First (hence longest) operator-table match against the input. -/
def match_operator (l : List Char) : Option (List Char × lexeme × List Char) :=
  operator_table.findSome? fun e =>
    if e.1.isPrefixOf l then some (e.1, e.2, l.drop e.1.length) else none

/-! ## Lexer: scanners for identifiers, numbers, quoted and raw literals -/

/-- Modelled from the spec: keywords recognized during lexing; the token
kind is a function of the token text alone. -/
def keyword_list : List (List Char) :=
  [ "if".toList, "is".toList, "as".toList, "do".toList, "in".toList,
    "for".toList, "while".toList, "else".toList, "return".toList,
    "new".toList, "inspect".toList, "operator".toList, "requires".toList,
    "true".toList, "false".toList, "nullptr".toList, "this".toList,
    "const".toList, "import".toList, "namespace".toList, "type".toList ]

/-- Kind given to an identifier-shaped token: keyword or identifier. -/
def identifier_kind (text : List Char) : lexeme :=
  if keyword_list.contains text then .Keyword else .Identifier

def digit_or_separator (c : Char) : Bool := is_separator_or is_digit c

def binary_digit_or_separator (c : Char) : Bool :=
  is_separator_or is_binary_digit c

def hexadecimal_digit_or_separator (c : Char) : Bool :=
  is_separator_or is_hexadecimal_digit c

/-- Modelled from the spec: scan a decimal or float literal starting at
digit `c` with remaining input `r`; returns token text, kind, rest.
A float requires a digit after the decimal point. -/
def scan_decimal (c : Char) (r : List Char) : List Char × lexeme × List Char :=
  let ds := r.takeWhile digit_or_separator
  let rest := r.drop ds.length
  match rest with
  | p :: d :: rr =>
    if p == '.' && is_digit d then
      let fs := (d :: rr).takeWhile digit_or_separator
      (c :: ds ++ p :: fs, lexeme.FloatLiteral, (d :: rr).drop fs.length)
    else (c :: ds, lexeme.DecimalLiteral, rest)
  | _ => (c :: ds, lexeme.DecimalLiteral, rest)

/-- Modelled from the spec: scan a numeric literal (binary `0b`/`0B`,
hexadecimal `0x`/`0X`, decimal or float, with digit separators) starting
at digit `c` with remaining input `r`. -/
def scan_number (c : Char) (r : List Char) : List Char × lexeme × List Char :=
  match r with
  | b :: d :: rr =>
    if c == '0' && (b == 'b' || b == 'B') && is_binary_digit d then
      let ds := (d :: rr).takeWhile binary_digit_or_separator
      (c :: b :: ds, lexeme.BinaryLiteral, (d :: rr).drop ds.length)
    else if c == '0' && (b == 'x' || b == 'X') && is_hexadecimal_digit d then
      let ds := (d :: rr).takeWhile hexadecimal_digit_or_separator
      (c :: b :: ds, lexeme.HexadecimalLiteral, (d :: rr).drop ds.length)
    else scan_decimal c r
  | _ => scan_decimal c r

/-- Modelled from the spec: scan the body of a quoted literal (string or
character) with backslash escapes, up to and including the closing quote
`q`. The Boolean flag records a pending escape. Returns the scanned body
(closing quote included) and the rest, or none when unterminated. -/
def scan_quoted_go (q : Char) : List Char → Bool → Option (List Char × List Char)
  | [], _ => none
  | c :: r, true =>
    (scan_quoted_go q r false).map fun p => (c :: p.1, p.2)
  | c :: r, false =>
    if c == q then some ([q], r)
    else if c == '\\' then
      (scan_quoted_go q r true).map fun p => (c :: p.1, p.2)
    else
      (scan_quoted_go q r false).map fun p => (c :: p.1, p.2)

def scan_quoted (q : Char) (l : List Char) : Option (List Char × List Char) :=
  scan_quoted_go q l false

/-- Split the input at the first occurrence of `seq`: returns the part
before and the part after, or none if `seq` does not occur. -/
def split_first (seq : List Char) : List Char → Option (List Char × List Char)
  | [] => if seq.isPrefixOf ([] : List Char) then some ([], []) else none
  | c :: r =>
    if seq.isPrefixOf (c :: r) then some ([], (c :: r).drop seq.length)
    else (split_first seq r).map fun p => (c :: p.1, p.2)

/-- Whether `seq` occurs (contiguously) in `l`. -/
def contains_seq (seq l : List Char) : Bool :=
  (split_first seq l).isSome

/-! ## Lexer: one line at a time with carried state -/

/-- Translated from source `raw_string`: an in-progress raw-string
literal descriptor (start position, accumulated text, opening and
closing delimiter sequences). -/
structure raw_string where
  start : source_position
  text : List Char
  opening_seq : List Char
  closing_seq : List Char
  deriving DecidableEq, Repr

/-- The carried-in lexer state of `lex_line`: in-comment flag, partial
comment text and start, and the optional in-progress raw string, as in
the source signature of `lex_line`. -/
structure lexer_state where
  in_comment : Bool
  current_comment : List Char
  current_comment_start : source_position
  raw_string_multiline : Option raw_string
  deriving DecidableEq, Repr

def clean_lexer_state : lexer_state :=
  { in_comment := false, current_comment := [],
    current_comment_start := ⟨1, 1⟩, raw_string_multiline := none }

/-- The output of lexing one line: produced tokens, completed comments,
reported errors, and the updated carried state. -/
structure lex_line_result where
  tokens : List token
  comments : List comment
  errors : List error_entry
  st : lexer_state
  deriving DecidableEq, Repr

def cons_token (t : token) (res : lex_line_result) : lex_line_result :=
  { res with tokens := t :: res.tokens }

def cons_comment (c : comment) (res : lex_line_result) : lex_line_result :=
  { res with comments := c :: res.comments }

def cons_error (e : error_entry) (res : lex_line_result) : lex_line_result :=
  { res with errors := e :: res.errors }

def stop_with (errs : List error_entry) (st : lexer_state) : lex_line_result :=
  { tokens := [], comments := [], errors := errs, st := st }

/-- Modelled from the spec: the lexing loop for one classified line.
Dispatches on carried state (open raw string, open block comment) and on
the first character: whitespace, line/block comments, raw-string
literals with custom delimiters, string/character literals with escapes,
numeric literals, identifiers/keywords, and longest-match operators.
Malformed or unterminated constructs append an error at the offending
position and the remainder of the line is treated as inert text. `fuel`
bounds the recursion; `lex_line` supplies enough for any input. -/
def lex_line_go (lineno : Int) : Nat → List Char → Int → lexer_state → lex_line_result
  | 0, _, _, st => stop_with [] st
  | fuel + 1, l, col, st =>
    match st.raw_string_multiline with
    | some rs =>
      match split_first rs.closing_seq l with
      | some (content, after) =>
        lex_line_go lineno fuel after
          (col + ((content.length + rs.closing_seq.length : Nat) : Int))
          { st with raw_string_multiline := none }
      | none =>
        stop_with []
          { st with raw_string_multiline := some { rs with text := rs.text ++ l } }
    | none =>
      if st.in_comment then
        match split_first "*/".toList l with
        | some (content, after) =>
          cons_comment
            ⟨true, st.current_comment_start,
             ⟨lineno, col + ((content.length + 2 : Nat) : Int)⟩,
             st.current_comment ++ content ++ "*/".toList, false⟩
            (lex_line_go lineno fuel after
              (col + ((content.length + 2 : Nat) : Int))
              { st with in_comment := false, current_comment := [] })
        | none =>
          stop_with []
            { st with current_comment := st.current_comment ++ l }
      else
        match l with
        | [] => stop_with [] st
        | c :: r =>
          if c == ' ' || c == '\t' then
            lex_line_go lineno fuel r (col + 1) st
          else if c == '/' && r.head? == some '/' then
            { tokens := [],
              comments := [⟨false, ⟨lineno, col⟩,
                ⟨lineno, col + ((l.length : Nat) : Int)⟩, l, false⟩],
              errors := [], st := st }
          else if c == '/' && r.head? == some '*' then
            match split_first "*/".toList (r.drop 1) with
            | some (content, after) =>
              cons_comment
                ⟨true, ⟨lineno, col⟩,
                 ⟨lineno, col + ((content.length + 4 : Nat) : Int)⟩,
                 '/' :: '*' :: content ++ "*/".toList, false⟩
                (lex_line_go lineno fuel after
                  (col + ((content.length + 4 : Nat) : Int)) st)
            | none =>
              stop_with []
                { st with
                  in_comment := true
                  current_comment := l
                  current_comment_start := ⟨lineno, col⟩ }
          else if c == 'R' && r.head? == some '"' then
            let rr := r.drop 1
            let delim := rr.takeWhile (fun x => x != '(')
            match rr.drop delim.length with
            | paren :: body =>
              if paren == '(' then
                let closing := ')' :: delim ++ ['"']
                match split_first closing body with
                | some (content, after) =>
                  let text := 'R' :: '"' :: delim ++ paren :: content ++ closing
                  cons_token ⟨text, ⟨lineno, col⟩, .StringLiteral⟩
                    (lex_line_go lineno fuel after
                      (col + ((text.length : Nat) : Int)) st)
                | none =>
                  let rs0 : raw_string :=
                    ⟨⟨lineno, col⟩, body, 'R' :: '"' :: delim ++ [paren], closing⟩
                  stop_with [] { st with raw_string_multiline := some rs0 }
              else
                stop_with
                  [⟨⟨lineno, col⟩, "malformed raw string opening delimiter",
                    false, false⟩] st
            | _ =>
              stop_with
                [⟨⟨lineno, col⟩, "malformed raw string opening delimiter",
                  false, false⟩] st
          else if c == '"' then
            match scan_quoted '"' r with
            | some (body, after) =>
              cons_token ⟨'"' :: body, ⟨lineno, col⟩, .StringLiteral⟩
                (lex_line_go lineno fuel after
                  (col + ((body.length + 1 : Nat) : Int)) st)
            | none =>
              stop_with
                [⟨⟨lineno, col⟩, "unterminated string literal",
                  false, false⟩] st
          else if c == digit_separator then
            match scan_quoted digit_separator r with
            | some (body, after) =>
              cons_token ⟨c :: body, ⟨lineno, col⟩, .CharacterLiteral⟩
                (lex_line_go lineno fuel after
                  (col + ((body.length + 1 : Nat) : Int)) st)
            | none =>
              stop_with
                [⟨⟨lineno, col⟩, "unterminated character literal",
                  false, false⟩] st
          else if is_digit c then
            match scan_number c r with
            | (text, kind, after) =>
              cons_token ⟨text, ⟨lineno, col⟩, kind⟩
                (lex_line_go lineno fuel after
                  (col + ((text.length : Nat) : Int)) st)
          else if is_identifier_start c then
            let text := c :: r.takeWhile is_identifier_continue
            cons_token ⟨text, ⟨lineno, col⟩, identifier_kind text⟩
              (lex_line_go lineno fuel
                (r.drop (r.takeWhile is_identifier_continue).length)
                (col + ((text.length : Nat) : Int)) st)
          else
            match match_operator (c :: r) with
            | some (op, k, after) =>
              cons_token ⟨op, ⟨lineno, col⟩, k⟩
                (lex_line_go lineno fuel after
                  (col + ((op.length : Nat) : Int)) st)
            | none =>
              cons_error ⟨⟨lineno, col⟩, "unrecognized character", false, false⟩
                (lex_line_go lineno fuel r (col + 1) st)

/-- Modelled from the spec: tokenize a single line while maintaining
inter-line state, as in the source signature
`lex_line(mutable_line, lineno, in_comment, current_comment,
current_comment_start, tokens, comments, errors, raw_string_multiline)`.
The by-reference outputs are returned in a `lex_line_result`. -/
def lex_line (l : List Char) (lineno : Int) (st : lexer_state) : lex_line_result :=
  lex_line_go lineno (l.length + 1) l 1 st

/-! ## Lexer: a whole file (`tokens::lex` over the classified lines) -/

/-- The accumulated output of lexing a sequence of lines. -/
structure lex_file_result where
  tokens : List token
  comments : List comment
  errors : List error_entry
  deriving DecidableEq, Repr

def append_result (r : lex_line_result) (errs2 : List error_entry)
    (rest : lex_file_result) : lex_file_result :=
  ⟨r.tokens ++ rest.tokens, r.comments ++ rest.comments,
   r.errors ++ errs2 ++ rest.errors⟩

def unterminated_raw_string_message : String :=
  "raw string literal is never terminated"

/-- Modelled from the spec: lex the classified lines in order, threading
the carried state. When a raw-string literal is open and its closing
delimiter sequence never appears before the end of the file, exactly one
lexical error is appended, positioned at the opening delimiter, and the
lexer best-effort recovers: the swallowed text is treated as inert and
subsequent lines are lexed normally. An unterminated block comment at
the end of the file is likewise reported at its start. -/
def lex_file_go : List (List Char) → Int → lexer_state → lex_file_result
  | [], _, st =>
    match st.raw_string_multiline with
    | some rs =>
      ⟨[], [], [⟨rs.start, unterminated_raw_string_message, false, false⟩]⟩
    | none =>
      if st.in_comment then
        ⟨[], [],
         [⟨st.current_comment_start, "unterminated comment", false, false⟩]⟩
      else ⟨[], [], []⟩
  | line :: rest, lineno, st =>
    let r := lex_line line lineno st
    match r.st.raw_string_multiline with
    | some rs =>
      if rest.any (fun l2 => contains_seq rs.closing_seq l2) then
        append_result r [] (lex_file_go rest (lineno + 1) r.st)
      else
        append_result r
          [⟨rs.start, unterminated_raw_string_message, false, false⟩]
          (lex_file_go rest (lineno + 1)
            { r.st with raw_string_multiline := none })
    | none => append_result r [] (lex_file_go rest (lineno + 1) r.st)

def lex_file (lines : List (List Char)) (lineno : Int) : lex_file_result :=
  lex_file_go lines lineno clean_lexer_state

/-! ## AST: expression nodes

Structure layouts translated from the source parse header. The source
`binary_expression_node<Name, Term>` holds one left-most term `expr` of
the next-tighter kind plus a vector of `term { op; expr }` pairs; the
twelve precedence levels are instances of it. The unary levels below
keep the fields the claims exercise (the omitted alternatives of
`primary_expression_node` — expression lists, id-expressions with
template arguments, inspect expressions, unnamed declarations — and the
is/as constraint list are not needed by any claim). -/

inductive primary_expression_node where
  | identifier (t : token)
  | literal (t : token)
  deriving DecidableEq, Repr

/-- Translated from source `postfix_expression_node` (its `term` list of
postfix operators is kept as the operator tokens; the capture-group
back-pointer lives in the capture model below). -/
structure postfix_expression_node where
  expr : primary_expression_node
  ops : List token
  deriving DecidableEq, Repr

structure prefix_expression_node where
  ops : List token
  expr : postfix_expression_node
  deriving DecidableEq, Repr

structure is_as_expression_node where
  expr : prefix_expression_node
  deriving DecidableEq, Repr

/-- One (operator, term) pair of a binary level, as in the source
`binary_expression_node::term`. -/
structure binary_term (T : Type) where
  op : token
  expr : T
  deriving DecidableEq, Repr

/-- Translated from source `binary_expression_node<Name, Term>`: one
left-most term of the next-tighter kind plus a flat list of
(operator, term) pairs. -/
structure binary_expression_node (T : Type) where
  expr : T
  terms : List (binary_term T)
  deriving DecidableEq, Repr

abbrev multiplicative_expression_node :=
  binary_expression_node is_as_expression_node
abbrev additive_expression_node :=
  binary_expression_node multiplicative_expression_node
abbrev shift_expression_node :=
  binary_expression_node additive_expression_node
abbrev compare_expression_node :=
  binary_expression_node shift_expression_node
abbrev relational_expression_node :=
  binary_expression_node compare_expression_node
abbrev equality_expression_node :=
  binary_expression_node relational_expression_node
abbrev bit_and_expression_node :=
  binary_expression_node equality_expression_node
abbrev bit_xor_expression_node :=
  binary_expression_node bit_and_expression_node
abbrev bit_or_expression_node :=
  binary_expression_node bit_xor_expression_node
abbrev logical_and_expression_node :=
  binary_expression_node bit_or_expression_node
abbrev logical_or_expression_node :=
  binary_expression_node logical_and_expression_node
abbrev assignment_expression_node :=
  binary_expression_node logical_or_expression_node

/-! ## Parser: recursive descent over a token list

Modelled from the spec: the parser bodies are not in the shipped
headers. Each parsing function consumes from the front of the token
list and returns the node plus the remaining tokens, or none. -/

def parse_primary_expression :
    List token → Option (primary_expression_node × List token)
  | [] => none
  | t :: r =>
    if t.lex_type == .Identifier then some (.identifier t, r)
    else if is_literal t.lex_type then some (.literal t, r)
    else none

/-- Modelled from the spec: the postfix-operator suffixes require
whitespace adjacency information and are not exercised by any claim, so
a postfix-expression is parsed as its primary-expression. -/
def parse_postfix_expression :
    List token → Option (postfix_expression_node × List token) :=
  fun toks =>
    (parse_primary_expression toks).map fun p => (⟨p.1, []⟩, p.2)

def is_prefix_operator (l : lexeme) : Bool :=
  l == .Not || l == .Minus || l == .Plus

def parse_prefix_expression :
    List token → Option (prefix_expression_node × List token)
  | [] => none
  | t :: r =>
    if is_prefix_operator t.lex_type then
      (parse_prefix_expression r).map fun p =>
        ({ ops := t :: p.1.ops, expr := p.1.expr }, p.2)
    else
      (parse_postfix_expression (t :: r)).map fun p => (⟨[], p.1⟩, p.2)

/-- Modelled from the spec: the is/as constraint suffixes are not
exercised by any claim, so an is-as-expression is parsed as its
prefix-expression. -/
def parse_is_as_expression :
    List token → Option (is_as_expression_node × List token) :=
  fun toks => (parse_prefix_expression toks).map fun p => (⟨p.1⟩, p.2)

/-- Modelled from the spec: the generic binary-expression routine is
parameterized by what counts as this level's operator (`validate_op`)
and how to parse one term (`term`); it greedily consumes
`term (op term)*`, producing a flat list of (operator, term) pairs.
This is the `(op term)*` loop. -/
def parse_binary_terms {T : Type} (validate_op : token → Bool)
    (term : List token → Option (T × List token)) :
    Nat → List token → Option (List (binary_term T) × List token)
  | 0, toks => some ([], toks)
  | _ + 1, [] => some ([], [])
  | fuel + 1, t :: r =>
    if validate_op t then
      (term r).bind fun p =>
        (parse_binary_terms validate_op term fuel p.2).map fun q =>
          (⟨t, p.1⟩ :: q.1, q.2)
    else some ([], t :: r)

/-- Modelled from the spec: one binary precedence level — one left-most
term of the next-tighter level, then the flat `(op term)*` list. -/
def parse_binary_expression {T : Type} (validate_op : token → Bool)
    (term : List token → Option (T × List token)) (toks : List token) :
    Option (binary_expression_node T × List token) :=
  (term toks).bind fun p =>
    (parse_binary_terms validate_op term p.2.length p.2).map fun q =>
      (⟨p.1, q.1⟩, q.2)

def is_multiplicative_op (t : token) : Bool :=
  t.lex_type == .Multiply || t.lex_type == .Slash || t.lex_type == .Modulo

def is_additive_op (t : token) : Bool :=
  t.lex_type == .Plus || t.lex_type == .Minus

def is_shift_op (t : token) : Bool :=
  t.lex_type == .LeftShift || t.lex_type == .RightShift

def is_compare_op (t : token) : Bool :=
  t.lex_type == .Spaceship

def is_relational_op (t : token) : Bool :=
  t.lex_type == .Less || t.lex_type == .Greater ||
  t.lex_type == .LessEq || t.lex_type == .GreaterEq

def is_equality_op (t : token) : Bool :=
  t.lex_type == .EqualComparison || t.lex_type == .NotEqualComparison

def is_bit_and_op (t : token) : Bool := t.lex_type == .Ampersand

def is_bit_xor_op (t : token) : Bool := t.lex_type == .Caret

def is_bit_or_op (t : token) : Bool := t.lex_type == .Pipe

def is_logical_and_op (t : token) : Bool := t.lex_type == .LogicalAnd

def is_logical_or_op (t : token) : Bool := t.lex_type == .LogicalOr

def is_assignment_op (t : token) : Bool :=
  match t.lex_type with
  | .Assignment | .MultiplyEq | .SlashEq | .ModuloEq | .PlusEq | .MinusEq
  | .RightShiftEq | .LeftShiftEq | .AmpersandEq | .CaretEq | .PipeEq
  | .LogicalAndEq | .LogicalOrEq | .TildeEq => true
  | _ => false

def parse_multiplicative_expression :
    List token → Option (multiplicative_expression_node × List token) :=
  parse_binary_expression is_multiplicative_op parse_is_as_expression

def parse_additive_expression :
    List token → Option (additive_expression_node × List token) :=
  parse_binary_expression is_additive_op parse_multiplicative_expression

def parse_shift_expression :
    List token → Option (shift_expression_node × List token) :=
  parse_binary_expression is_shift_op parse_additive_expression

def parse_compare_expression :
    List token → Option (compare_expression_node × List token) :=
  parse_binary_expression is_compare_op parse_shift_expression

def parse_relational_expression :
    List token → Option (relational_expression_node × List token) :=
  parse_binary_expression is_relational_op parse_compare_expression

def parse_equality_expression :
    List token → Option (equality_expression_node × List token) :=
  parse_binary_expression is_equality_op parse_relational_expression

def parse_bit_and_expression :
    List token → Option (bit_and_expression_node × List token) :=
  parse_binary_expression is_bit_and_op parse_equality_expression

def parse_bit_xor_expression :
    List token → Option (bit_xor_expression_node × List token) :=
  parse_binary_expression is_bit_xor_op parse_bit_and_expression

def parse_bit_or_expression :
    List token → Option (bit_or_expression_node × List token) :=
  parse_binary_expression is_bit_or_op parse_bit_xor_expression

def parse_logical_and_expression :
    List token → Option (logical_and_expression_node × List token) :=
  parse_binary_expression is_logical_and_op parse_bit_or_expression

def parse_logical_or_expression :
    List token → Option (logical_or_expression_node × List token) :=
  parse_binary_expression is_logical_or_op parse_logical_and_expression

def parse_assignment_expression :
    List token → Option (assignment_expression_node × List token) :=
  parse_binary_expression is_assignment_op parse_logical_or_expression

/-- Modelled from the spec: a minimal declaration grammar sufficient for
whole-file parsing — `identifier ':' identifier? '=' expression ';'`
(object declarations with an optional declared type). -/
def parse_declaration (toks : List token) : Option (List token) :=
  match toks with
  | t1 :: t2 :: r =>
    if t1.lex_type == .Identifier && t2.lex_type == .Colon then
      let r2 : List token := match r with
        | ty :: rr =>
          if ty.lex_type == lexeme.Identifier || ty.lex_type == lexeme.Keyword then rr
          else r
        | _ => r
      match r2 with
      | eq_ :: r3 =>
        if eq_.lex_type == lexeme.Assignment then
          match parse_assignment_expression r3 with
          | some (_, semi :: r4) =>
            if semi.lex_type == lexeme.Semicolon then some r4 else none
          | _ => none
        else none
      | _ => none
    else none
  | _ => none

/-- Modelled from the spec: `parse` appends declarations until the token
stream is exhausted and reports overall success. -/
def parse_translation_unit_go : Nat → List token → Bool
  | _, [] => true
  | 0, _ => false
  | fuel + 1, toks =>
    match parse_declaration toks with
    | some rest => parse_translation_unit_go fuel rest
    | none => false

def parse_translation_unit (toks : List token) : Bool :=
  parse_translation_unit_go (toks.length + 1) toks

/-! ## AST: statements and declarations (the parts the claims need) -/

/-- Translated from source `statement_node::active`: the tag of the
statement variant. -/
inductive statement_kind where
  | expression | compound | selection | declaration | return_ | iteration
  | using_ | contract | inspect | jump
  deriving DecidableEq, Repr

/-- Translated from source `statement_node`: the variant payloads are
modelled by the tag plus an identifying payload id; the note fields
`emitted` and `marked_for_removal` are as in the source. -/
structure statement_node where
  kind : statement_kind
  payload : Nat
  emitted : Bool
  marked_for_removal : Bool
  deriving DecidableEq, Repr

/-- Marking a member statement for removal during metafunction
processing sets its flag and nothing else (deferred removal). -/
def mark_for_removal (s : statement_node) : statement_node :=
  { s with marked_for_removal := true }

/-- Translated from source `declaration_node`, restricted to the fields
the claims exercise: the identifier and, for a type declaration, the
member statements of its initializer compound statement. -/
structure declaration_node where
  identifier : String
  body : List statement_node
  deriving DecidableEq, Repr

/-- Modelled from the spec: the removal sweep
(`declaration_node::type_remove_marked_members`) physically removes
exactly the members that were flagged. -/
def type_remove_marked_members (d : declaration_node) : declaration_node :=
  { d with body := d.body.filter (fun s => !s.marked_for_removal) }

/-- Modelled from the spec: `type_remove_all_members`. -/
def type_remove_all_members (d : declaration_node) : declaration_node :=
  { d with body := [] }

/-! ## Capture groups -/

/-- Translated from source `capture`: maps a postfix-expression (by
identity, modelled as a node id) to a stable synthetic name. -/
structure capture where
  capture_expr : Nat
  cap_sym : String
  deriving DecidableEq, Repr

/-- Translated from source `capture_group`. -/
structure capture_group where
  members : List capture
  deriving DecidableEq, Repr

/-- Modelled from the spec: the stable synthetic name of a capture. -/
def synthesized_capture_name (p : Nat) : String :=
  "_" ++ toString p

/-- Modelled from the spec: `capture_group::add` deduplicates by
expression identity — adding an expression already present stores
nothing new. -/
def capture_group_add (g : capture_group) (p : Nat) : capture_group :=
  if g.members.any (fun c => c.capture_expr == p) then g
  else ⟨g.members ++ [⟨p, synthesized_capture_name p⟩]⟩

/-- Modelled from the spec: `capture_group::remove` removes the capture
entry of the given expression. -/
def capture_group_remove (g : capture_group) (p : Nat) : capture_group :=
  ⟨g.members.filter (fun c => !(c.capture_expr == p))⟩

/-- Retrieval of a capture entry by its synthetic name. -/
def capture_group_find_by_name (g : capture_group) (s : String) :
    Option capture :=
  g.members.find? (fun c => c.cap_sym == s)

/-- A postfix-expression node as the capture model sees it: its identity
and whether it is registered in the capture group (`cap_grp` non-null).
-/
structure registered_expression where
  id : Nat
  cap_grp : Bool
  deriving DecidableEq, Repr

/-- Modelled from the spec: the destructor of `postfix_expression_node`
calls `capture_group::remove` on its group when `cap_grp` is non-null.
-/
def destroy_registered_expression (g : capture_group)
    (n : registered_expression) : capture_group :=
  if n.cap_grp then capture_group_remove g n.id else g

/-! ## Reflection layer: metafunction processing state machine

Modelled from the spec: a metafunction interacts with the parser through
`compiler_services`; the calls a run makes are modelled by their effect
on error reporting. `require(condition, message)` hard-fails the whole
compilation when the condition is false; `error(message)` reports
without necessarily aborting. -/

inductive service_call where
  | require (cond : Bool) (msg : String)
  | error_report (msg : String)
  | add_member (source : String)
  deriving DecidableEq, Repr

/-- The sequence of compiler-services calls one metafunction invocation
makes. -/
abbrev metafunction_run := List service_call

/-- Whether one service call signals a hard error: a `require` whose
condition is false. -/
def call_is_hard_error : service_call → Bool
  | .require cond _ => !cond
  | _ => false

/-- Whether a metafunction invocation signaled a hard error. -/
def metafunction_hard_error (m : metafunction_run) : Bool :=
  m.any call_is_hard_error

/-- Modelled from the spec: `apply_metafunctions` runs the listed
metafunctions left to right and reports success only when none signaled
a hard error. -/
def apply_metafunctions (mfs : List metafunction_run) : Bool :=
  !(mfs.any metafunction_hard_error)

/-- Modelled from the spec: the per-declaration state machine
`Parsing-header → Applying-metafunctions[i] → … → Done`, with a hard
error aborting to a failed state. -/
inductive decl_parse_state where
  | parsing_header
  | applying_metafunctions (i : Nat)
  | done
  | failed
  deriving DecidableEq, Repr

/-- One transition of the per-declaration state machine. -/
def decl_step (mfs : List metafunction_run) :
    decl_parse_state → decl_parse_state
  | .parsing_header => .applying_metafunctions 0
  | .applying_metafunctions i =>
    match mfs.drop i with
    | [] => .done
    | mf :: _ =>
      if metafunction_hard_error mf then .failed
      else .applying_metafunctions (i + 1)
  | .done => .done
  | .failed => .failed

def decl_machine_run (mfs : List metafunction_run) :
    decl_parse_state → Nat → decl_parse_state
  | s, 0 => s
  | s, fuel + 1 => decl_machine_run mfs (decl_step mfs s) fuel

/-- Processing one declaration: run the machine from `parsing_header`
through every listed metafunction. -/
def process_declaration (mfs : List metafunction_run) : decl_parse_state :=
  decl_machine_run mfs .parsing_header (mfs.length + 2)

/-- Modelled from the spec: the enclosing `parse` call succeeds for the
whole translation unit only if every declaration reaches `Done`, i.e. no
metafunction call signaled a hard error. -/
def parse_with_metafunctions (tu : List (List metafunction_run)) : Bool :=
  tu.all fun mfs => process_declaration mfs == decl_parse_state.done

/-! ## RawStringSegments: `string_parts` -/

/-- Translated from source `string_parts::adds_sequences`. -/
inductive adds_sequences where
  | no_ends | on_the_beginning | on_the_end | on_both_ends
  deriving DecidableEq, Repr

def adds_sequences.has_begin : adds_sequences → Bool
  | .on_the_beginning | .on_both_ends => true
  | _ => false

def adds_sequences.has_end : adds_sequences → Bool
  | .on_the_end | .on_both_ends => true
  | _ => false

/-- Translated from source: a segment is literal raw-string text or
embedded code. -/
inductive string_part where
  | raw_string_part (text : String)
  | cpp_code_part (text : String)
  deriving DecidableEq, Repr

def part_text : string_part → String
  | .raw_string_part t => t
  | .cpp_code_part t => t

/-- Translated from source `string_parts`: begin/end delimiter strings,
the adds-sequences policy, and the ordered segments. -/
structure string_parts where
  begin_seq : String
  end_seq : String
  strategy : adds_sequences
  parts : List string_part
  deriving DecidableEq, Repr

def string_parts.add_code (sp : string_parts) (t : String) : string_parts :=
  { sp with parts := sp.parts ++ [.cpp_code_part t] }

def string_parts.add_string (sp : string_parts) (t : String) : string_parts :=
  { sp with parts := sp.parts ++ [.raw_string_part t] }

def string_parts.clear (sp : string_parts) : string_parts :=
  { sp with parts := [] }

/-- Modelled from the spec: the first segment's rendering — the begin
delimiter is placed here exactly when the policy selects the beginning.
-/
def begin_visit (begin_seq : String) (strategy : adds_sequences)
    (p : string_part) : String :=
  (if strategy.has_begin then begin_seq else "") ++ part_text p

/-- Modelled from the spec: the rendering contributed by a non-first
segment given its predecessor — interior segments carry no delimiter. -/
def generator_visit (_prev p : string_part) : String :=
  part_text p

/-- Modelled from the spec: what follows the last segment — the end
delimiter exactly when the policy selects the end. -/
def end_visit (end_seq : String) (strategy : adds_sequences)
    (_p : string_part) : String :=
  if strategy.has_end then end_seq else ""

def generate_rest (prev : string_part) : List string_part → String
  | [] => ""
  | p :: r => generator_visit prev p ++ generate_rest p r

/-- Modelled from the spec: `string_parts::generate` renders the
segments in order, visiting the first segment, each adjacent pair, and
the last segment, so delimiters appear only on segments adjacent to the
literal boundary as the policy selects. -/
def string_parts.generate (sp : string_parts) : String :=
  match sp.parts with
  | [] =>
    (if sp.strategy.has_begin then sp.begin_seq else "") ++
    (if sp.strategy.has_end then sp.end_seq else "")
  | p :: r =>
    begin_visit sp.begin_seq sp.strategy p ++ generate_rest p r ++
    end_visit sp.end_seq sp.strategy ((p :: r).getLast (by simp))

/-- The undecorated concatenation of the segment texts. -/
def concat_part_texts : List string_part → String
  | [] => ""
  | p :: r => part_text p ++ concat_part_texts r

/-- One recorded `add_string`/`add_code` call. -/
inductive add_call where
  | add_string_call (t : String)
  | add_code_call (t : String)
  deriving DecidableEq, Repr

def apply_add (sp : string_parts) : add_call → string_parts
  | .add_string_call t => sp.add_string t
  | .add_code_call t => sp.add_code t

def apply_adds (sp : string_parts) (cs : List add_call) : string_parts :=
  cs.foldl apply_add sp

def add_call_part : add_call → string_part
  | .add_string_call t => .raw_string_part t
  | .add_code_call t => .cpp_code_part t

/-! ## Sample tokens and single-identifier nodes for the precedence
instances -/

def tk (s : String) (k : lexeme) (c : Int) : token :=
  ⟨s.toList, ⟨1, c⟩, k⟩

def tk_a : token := tk "a" .Identifier 1

def tk_plus : token := tk "+" .Plus 3

def tk_b : token := tk "b" .Identifier 5

def tk_star : token := tk "*" .Multiply 7

def tk_c : token := tk "c" .Identifier 9

def tk_less : token := tk "<" .Less 3

def tk_eqeq : token := tk "==" .EqualComparison 7

/-- The is-as-expression node for a bare identifier token. -/
def is_as_leaf (t : token) : is_as_expression_node :=
  ⟨⟨[], ⟨.identifier t, []⟩⟩⟩

def multiplicative_leaf (t : token) : multiplicative_expression_node :=
  ⟨is_as_leaf t, []⟩

def additive_leaf (t : token) : additive_expression_node :=
  ⟨multiplicative_leaf t, []⟩

def shift_leaf (t : token) : shift_expression_node :=
  ⟨additive_leaf t, []⟩

def compare_leaf (t : token) : compare_expression_node :=
  ⟨shift_leaf t, []⟩

def relational_leaf (t : token) : relational_expression_node :=
  ⟨compare_leaf t, []⟩

/-! # Theorems -/

/-- C8: token equality holds exactly when the referenced character spans
are equal, regardless of the lexeme kinds and source positions. -/
theorem claim_C8_token_equality_by_text (s1 s2 : List Char)
    (p1 p2 : source_position) (k1 k2 : lexeme) :
    token_eq ⟨s1, p1, k1⟩ ⟨s2, p2, k2⟩ = true ↔ s1 = s2 := by
  simp [token_eq]

/-- C2: marking a member statement for removal does not remove it; the
removal sweep then leaves exactly the unmarked members in their original
relative order; sweeping with nothing marked is a no-op. -/
theorem claim_C2_deferred_member_removal :
    (∀ (nm : String) (f g h : statement_node),
      f.marked_for_removal = false → h.marked_for_removal = false →
      (declaration_node.mk nm [f, mark_for_removal g, h]).body.length = 3 ∧
      type_remove_marked_members ⟨nm, [f, mark_for_removal g, h]⟩ =
        ⟨nm, [f, h]⟩) ∧
    (∀ d : declaration_node,
      (∀ s ∈ d.body, s.marked_for_removal = false) →
      type_remove_marked_members d = d) := by
  constructor
  · intro nm f g h hf hh
    refine ⟨rfl, ?_⟩
    simp [type_remove_marked_members, mark_for_removal, hf, hh]
  · intro d hall
    have hb : d.body.filter (fun s => !s.marked_for_removal) = d.body := by
      apply List.filter_eq_self.mpr
      intro a ha
      simp [hall a ha]
    cases d with
    | mk idn b =>
      simp only [type_remove_marked_members]
      simp [hb]

/-- C2 witness: a concrete type with members `[f, g, h]`. -/
theorem claim_C2_deferred_member_removal_witness :
    type_remove_marked_members
        ⟨"T", [⟨.declaration, 0, false, false⟩,
               mark_for_removal ⟨.declaration, 1, false, false⟩,
               ⟨.declaration, 2, false, false⟩]⟩ =
      ⟨"T", [⟨.declaration, 0, false, false⟩,
             ⟨.declaration, 2, false, false⟩]⟩ :=
  (claim_C2_deferred_member_removal.1 "T"
    ⟨.declaration, 0, false, false⟩ ⟨.declaration, 1, false, false⟩
    ⟨.declaration, 2, false, false⟩ rfl rfl).2

/-- Retrieval by name over an appended fresh capture, skipping members
whose synthetic names differ. -/
theorem find_by_name_append (ms : List capture) (nm : String) (e : capture)
    (h : ∀ c ∈ ms, c.cap_sym ≠ nm) :
    (ms ++ [e]).find? (fun c => c.cap_sym == nm) =
      if e.cap_sym == nm then some e else none := by
  induction ms with
  | nil =>
    simp only [List.nil_append, List.find?]
    cases he : e.cap_sym == nm <;> simp [he]
  | cons a rest ih =>
    have ha : (a.cap_sym == nm) = false := by
      simpa using h a (by simp)
    simp only [List.cons_append, List.find?, ha]
    exact ih fun c hc => h c (by simp [hc])

/-- C6: adding the same expression to a capture group twice stores
exactly one capture entry for it, and that entry is retrievable by its
synthetic name. -/
theorem claim_C6_capture_group_dedup (g : capture_group) (p : Nat)
    (hid : ∀ c ∈ g.members, c.capture_expr ≠ p)
    (hname : ∀ c ∈ g.members, c.cap_sym ≠ synthesized_capture_name p) :
    ((capture_group_add (capture_group_add g p) p).members.filter
        (fun c => c.capture_expr == p)).length = 1 ∧
    capture_group_find_by_name (capture_group_add (capture_group_add g p) p)
        (synthesized_capture_name p) =
      some ⟨p, synthesized_capture_name p⟩ := by
  have hany : g.members.any (fun c => c.capture_expr == p) = false := by
    rw [List.any_eq_false]
    intro c hc
    simpa using hid c hc
  have h2 : capture_group_add (capture_group_add g p) p =
      ⟨g.members ++ [⟨p, synthesized_capture_name p⟩]⟩ := by
    have h1 : capture_group_add g p =
        ⟨g.members ++ [⟨p, synthesized_capture_name p⟩]⟩ := by
      simp [capture_group_add, hany]
    rw [h1]
    simp [capture_group_add]
  rw [h2]
  constructor
  · have hnil : g.members.filter (fun c => c.capture_expr == p) = [] := by
      rw [List.filter_eq_nil_iff]
      intro c hc
      simpa using hid c hc
    simp [List.filter_append, hnil]
  · unfold capture_group_find_by_name
    simp only
    rw [find_by_name_append g.members (synthesized_capture_name p) _ hname]
    simp

/-- C6 witness: a fresh group and the expression with id 7. -/
theorem claim_C6_capture_group_dedup_witness :
    ((capture_group_add (capture_group_add ⟨[]⟩ 7) 7).members.filter
        (fun c => c.capture_expr == 7)).length = 1 ∧
    capture_group_find_by_name (capture_group_add (capture_group_add ⟨[]⟩ 7) 7)
        (synthesized_capture_name 7) =
      some ⟨7, synthesized_capture_name 7⟩ :=
  claim_C6_capture_group_dedup ⟨[]⟩ 7 (by simp) (by simp)

/-- C10: destroying a postfix-expression node that is registered in a
capture group removes its capture entry, so the group retains no entry
whose `capture_expr` points to the destroyed node. -/
theorem claim_C10_destroy_removes_capture_entry (g : capture_group)
    (n : registered_expression) (hreg : n.cap_grp = true) :
    ∀ c ∈ (destroy_registered_expression g n).members,
      c.capture_expr ≠ n.id := by
  intro c hc
  simp only [destroy_registered_expression, hreg, if_true,
    capture_group_remove] at hc
  have := List.of_mem_filter hc
  simpa using this

/-- C10 witness: a group holding entries for nodes 3 and 5, with the
registered node 3 destroyed, retains no entry pointing at node 3. -/
theorem claim_C10_destroy_removes_capture_entry_witness :
    ((destroy_registered_expression
        ⟨[⟨3, synthesized_capture_name 3⟩, ⟨5, synthesized_capture_name 5⟩]⟩
        ⟨3, true⟩).members.any fun c => c.capture_expr == 3) = false := by
  rw [List.any_eq_false]
  intro c hc
  simpa using claim_C10_destroy_removes_capture_entry
    ⟨[⟨3, synthesized_capture_name 3⟩, ⟨5, synthesized_capture_name 5⟩]⟩
    ⟨3, true⟩ rfl c hc

/-- Appending through `add_error` preserves freedom from duplicates. -/
theorem add_error_pairwise (acc : List error_entry) (e : error_entry)
    (h : acc.Pairwise fun a b => error_entry_eq a b = false) :
    (add_error acc e).Pairwise fun a b => error_entry_eq a b = false := by
  unfold add_error
  by_cases hc : acc.any (fun x => error_entry_eq x e) = true
  · simp [hc, h]
  · simp only [hc, Bool.false_eq_true, if_false]
    rw [List.pairwise_append]
    refine ⟨h, List.pairwise_singleton _ _, ?_⟩
    intro a ha b hb
    simp only [List.mem_singleton] at hb
    subst hb
    rw [List.any_eq_true] at hc
    push_neg at hc
    exact Bool.eq_false_iff.mpr (hc a ha)

theorem foldl_add_error_pairwise (es : List error_entry)
    (acc : List error_entry)
    (h : acc.Pairwise fun a b => error_entry_eq a b = false) :
    (es.foldl add_error acc).Pairwise fun a b => error_entry_eq a b = false := by
  induction es generalizing acc with
  | nil => simpa using h
  | cons e rest ih =>
    simp only [List.foldl_cons]
    exact ih _ (add_error_pairwise acc e h)

/-- C9: error records with the same position, message and flags compare
equal, and the diagnostics list built through the coalescing append
never contains two duplicate records. -/
theorem claim_C9_duplicate_errors_coalesced :
    (∀ e1 e2 : error_entry, error_entry_eq e1 e2 = true ↔
      (e1.where_ = e2.where_ ∧ e1.msg = e2.msg ∧
       e1.internal = e2.internal ∧ e1.fallback = e2.fallback)) ∧
    (∀ es : List error_entry,
      (es.foldl add_error []).Pairwise
        fun a b => error_entry_eq a b = false) := by
  constructor
  · intro e1 e2
    simp [error_entry_eq, and_assoc]
  · intro es
    exact foldl_add_error_pairwise es [] (by simp)

/-! ## The metafunction machine: characterization -/

theorem decl_machine_run_done (mfs : List metafunction_run) (n : Nat) :
    decl_machine_run mfs .done n = .done := by
  induction n with
  | zero => rfl
  | succ n ih => simpa [decl_machine_run, decl_step] using ih

theorem decl_machine_run_failed (mfs : List metafunction_run) (n : Nat) :
    decl_machine_run mfs .failed n = .failed := by
  induction n with
  | zero => rfl
  | succ n ih => simpa [decl_machine_run, decl_step] using ih

theorem decl_machine_applying (mfs : List metafunction_run) :
    ∀ (k i : Nat), mfs.length - i ≤ k →
      decl_machine_run mfs (.applying_metafunctions i) (k + 1) =
        (if (mfs.drop i).any metafunction_hard_error then .failed
         else .done) := by
  intro k
  induction k with
  | zero =>
    intro i hi
    have hdrop : mfs.drop i = [] := List.drop_eq_nil_of_le (by omega)
    simp [decl_machine_run, decl_step, hdrop]
  | succ k ih =>
    intro i hi
    cases hdrop : mfs.drop i with
    | nil =>
      have hstep : decl_step mfs (.applying_metafunctions i) = .done := by
        simp [decl_step, hdrop]
      rw [decl_machine_run, hstep, decl_machine_run_done]
      simp
    | cons mf rest =>
      have hlen : (mfs.drop i).length = mfs.length - i :=
        List.length_drop i mfs
      rw [hdrop] at hlen
      have hdrop2 : mfs.drop (i + 1) = rest := by
        have h2 : mfs.drop (i + 1) = (mfs.drop i).drop 1 := by
          rw [List.drop_drop]
        rw [h2, hdrop]
        simp
      by_cases hh : metafunction_hard_error mf = true
      · have hstep : decl_step mfs (.applying_metafunctions i) = .failed := by
          simp [decl_step, hdrop, hh]
        rw [decl_machine_run, hstep, decl_machine_run_failed]
        simp [hh]
      · have hhf : metafunction_hard_error mf = false :=
          Bool.eq_false_iff.mpr hh
        have hstep : decl_step mfs (.applying_metafunctions i) =
            .applying_metafunctions (i + 1) := by
          simp [decl_step, hdrop, hhf]
        rw [decl_machine_run, hstep,
          ih (i + 1) (by simp at hlen; omega), hdrop2]
        simp [hhf]

theorem process_declaration_characterization (mfs : List metafunction_run) :
    process_declaration mfs =
      (if mfs.any metafunction_hard_error then .failed else .done) := by
  unfold process_declaration
  have h1 : decl_machine_run mfs .parsing_header (mfs.length + 2) =
      decl_machine_run mfs (.applying_metafunctions 0) (mfs.length + 1) := by
    rw [show mfs.length + 2 = (mfs.length + 1) + 1 from rfl,
      decl_machine_run]
    simp [decl_step]
  rw [h1, decl_machine_applying mfs mfs.length 0 (by omega)]
  simp

/-- C3: a metafunction call failing a `require` check makes the
enclosing `parse` call return overall failure for the whole translation
unit, makes `apply_metafunctions` report failure, and a declaration
reaches the terminal `Done` state only if no metafunction call signaled
a hard error. -/
theorem claim_C3_require_failure_aborts_parse :
    (∀ (tu : List (List metafunction_run)) (mfs : List metafunction_run),
      mfs ∈ tu → ∀ mf ∈ mfs, ∀ m : String,
      service_call.require false m ∈ mf →
      parse_with_metafunctions tu = false) ∧
    (∀ (mfs : List metafunction_run) (mf : metafunction_run), mf ∈ mfs →
      ∀ m : String, service_call.require false m ∈ mf →
      apply_metafunctions mfs = false) ∧
    (∀ mfs : List metafunction_run,
      process_declaration mfs = .done →
      ∀ mf ∈ mfs, metafunction_hard_error mf = false) := by
  have hard_of_mem : ∀ (mf : metafunction_run) (m : String),
      service_call.require false m ∈ mf →
      metafunction_hard_error mf = true := by
    intro mf m hm
    rw [metafunction_hard_error, List.any_eq_true]
    exact ⟨_, hm, by simp [call_is_hard_error]⟩
  refine ⟨?_, ?_, ?_⟩
  · intro tu mfs htu mf hmf m hreq
    have hany : mfs.any metafunction_hard_error = true :=
      List.any_eq_true.mpr ⟨mf, hmf, hard_of_mem mf m hreq⟩
    have hfail : process_declaration mfs = .failed := by
      rw [process_declaration_characterization, hany]
      simp
    apply Bool.eq_false_iff.mpr
    intro hall
    rw [parse_with_metafunctions, List.all_eq_true] at hall
    have := hall mfs htu
    rw [hfail] at this
    simp at this
  · intro mfs mf hmf m hreq
    have hany : mfs.any metafunction_hard_error = true :=
      List.any_eq_true.mpr ⟨mf, hmf, hard_of_mem mf m hreq⟩
    simp [apply_metafunctions, hany]
  · intro mfs hdone mf hmf
    rw [process_declaration_characterization] at hdone
    by_cases h : mfs.any metafunction_hard_error = true
    · rw [h] at hdone
      simp at hdone
    · rw [List.any_eq_true] at h
      push_neg at h
      exact Bool.eq_false_iff.mpr (h mf hmf)

/-- C3 witness: a translation unit with one declaration whose single
metafunction fails a `require`. -/
theorem claim_C3_require_failure_aborts_parse_witness :
    parse_with_metafunctions
        [[[service_call.require false "interface may not have data members"]]]
      = false :=
  claim_C3_require_failure_aborts_parse.1
    [[[service_call.require false "interface may not have data members"]]]
    [[service_call.require false "interface may not have data members"]]
    (by simp)
    [service_call.require false "interface may not have data members"]
    (by simp)
    "interface may not have data members" (by simp)

/-! ## RawStringSegments: flat characterization of `generate` -/

theorem generate_rest_eq_concat (prev : string_part) (l : List string_part) :
    generate_rest prev l = concat_part_texts l := by
  induction l generalizing prev with
  | nil => rfl
  | cons p r ih => simp [generate_rest, generator_visit, concat_part_texts, ih]

theorem apply_adds_fields (cs : List add_call) (sp : string_parts) :
    (apply_adds sp cs).parts = sp.parts ++ cs.map add_call_part ∧
    (apply_adds sp cs).strategy = sp.strategy ∧
    (apply_adds sp cs).begin_seq = sp.begin_seq ∧
    (apply_adds sp cs).end_seq = sp.end_seq := by
  induction cs generalizing sp with
  | nil => simp [apply_adds]
  | cons c r ih =>
    have hstep : apply_adds sp (c :: r) = apply_adds (apply_add sp c) r := rfl
    rcases ih (apply_add sp c) with ⟨h1, h2, h3, h4⟩
    rw [hstep, h1, h2, h3, h4]
    cases c <;>
      simp [apply_add, string_parts.add_string, string_parts.add_code,
        add_call_part]

theorem string_parts_generate_flat (sp : string_parts) :
    sp.generate =
      (if sp.strategy.has_begin then sp.begin_seq else "") ++
      (concat_part_texts sp.parts ++
       (if sp.strategy.has_end then sp.end_seq else "")) := by
  unfold string_parts.generate
  cases hp : sp.parts with
  | nil => simp [concat_part_texts]
  | cons p r =>
    simp [begin_visit, end_visit, generate_rest_eq_concat,
      concat_part_texts, String.append_assoc]

/-- C7: `generate` places the begin/end delimiter strings only on the
segments adjacent to the literal boundary, as selected by the
adds-sequences policy: the output is the policy-selected begin
delimiter, then the undecorated segment texts, then the policy-selected
end delimiter — for every value and every sequence of
`add_string`/`add_code` calls. -/
theorem claim_C7_delimiters_only_at_boundary :
    (∀ sp : string_parts, sp.generate =
      (if sp.strategy.has_begin then sp.begin_seq else "") ++
      (concat_part_texts sp.parts ++
       (if sp.strategy.has_end then sp.end_seq else ""))) ∧
    (∀ (sp : string_parts) (cs : List add_call),
      (apply_adds sp cs).generate =
        (if sp.strategy.has_begin then sp.begin_seq else "") ++
        (concat_part_texts (sp.parts ++ cs.map add_call_part) ++
         (if sp.strategy.has_end then sp.end_seq else ""))) := by
  constructor
  · exact string_parts_generate_flat
  · intro sp cs
    rcases apply_adds_fields cs sp with ⟨h1, h2, h3, h4⟩
    rw [string_parts_generate_flat, h1, h2, h3, h4]

/-! ## Binary-expression parsing: flat shape and precedence -/

theorem parse_binary_terms_ops_valid {T : Type} (vo : token → Bool)
    (term : List token → Option (T × List token)) :
    ∀ (fuel : Nat) (toks : List token) (ts : List (binary_term T))
      (rest : List token),
      parse_binary_terms vo term fuel toks = some (ts, rest) →
      ∀ x ∈ ts, vo x.op = true := by
  intro fuel
  induction fuel with
  | zero =>
    intro toks ts rest h x hx
    simp [parse_binary_terms] at h
    rw [h.1] at hx
    simp at hx
  | succ fuel ih =>
    intro toks ts rest h x hx
    cases toks with
    | nil =>
      simp [parse_binary_terms] at h
      rw [h.1] at hx
      simp at hx
    | cons t r =>
      rw [parse_binary_terms] at h
      by_cases hvo : vo t = true
      · rw [if_pos hvo, Option.bind_eq_some] at h
        obtain ⟨p, hterm, hmap⟩ := h
        rw [Option.map_eq_some'] at hmap
        obtain ⟨q, hrec, heq⟩ := hmap
        have hts : binary_term.mk t p.1 :: q.1 = ts :=
          congrArg Prod.fst heq
        rw [← hts] at hx
        rcases List.mem_cons.mp hx with hx1 | hx2
        · rw [hx1]; exact hvo
        · exact ih p.2 q.1 q.2 (by rw [hrec]) x hx2
      · rw [if_neg hvo] at h
        simp at h
        rw [h.1] at hx
        simp at hx

theorem parse_binary_expression_shape {T : Type} (vo : token → Bool)
    (term : List token → Option (T × List token)) (toks : List token)
    (n : binary_expression_node T) (rest : List token)
    (h : parse_binary_expression vo term toks = some (n, rest)) :
    (∃ r1, term toks = some (n.expr, r1) ∧
      parse_binary_terms vo term r1.length r1 = some (n.terms, rest)) ∧
    ∀ x ∈ n.terms, vo x.op = true := by
  unfold parse_binary_expression at h
  rw [Option.bind_eq_some] at h
  obtain ⟨p, hterm, hmap⟩ := h
  rw [Option.map_eq_some'] at hmap
  obtain ⟨q, hrec, heq⟩ := hmap
  have hn : binary_expression_node.mk p.1 q.1 = n := congrArg Prod.fst heq
  have hr : q.2 = rest := congrArg Prod.snd heq
  subst hn
  subst hr
  refine ⟨⟨p.2, ?_, ?_⟩, ?_⟩
  · simpa using hterm
  · simpa using hrec
  · exact parse_binary_terms_ops_valid vo term p.2.length p.2 q.1 q.2
      (by rw [hrec])

/-- C1: each binary precedence level produces a node holding one
left-most term of the next-tighter level plus a flat list of
(operator, term) pairs whose operators all belong to that level; parsing
`a + b * c` yields an additive node whose single left term is `a` and
whose one pair has `+` with the multiplicative node over `b`, `c`;
parsing `a < b == c` yields an equality node whose left operand is the
relational node for `a < b`. -/
theorem claim_C1_binary_precedence_shape :
    (∀ (T : Type) (vo : token → Bool)
       (term : List token → Option (T × List token)) (toks : List token)
       (n : binary_expression_node T) (rest : List token),
      parse_binary_expression vo term toks = some (n, rest) →
      (∃ r1, term toks = some (n.expr, r1) ∧
        parse_binary_terms vo term r1.length r1 = some (n.terms, rest)) ∧
      ∀ x ∈ n.terms, vo x.op = true) ∧
    (parse_additive_expression [tk_a, tk_plus, tk_b, tk_star, tk_c] =
      some (⟨multiplicative_leaf tk_a,
        [⟨tk_plus, ⟨is_as_leaf tk_b, [⟨tk_star, is_as_leaf tk_c⟩]⟩⟩]⟩, [])) ∧
    (parse_equality_expression [tk_a, tk_less, tk_b, tk_eqeq, tk_c] =
      some (⟨⟨compare_leaf tk_a, [⟨tk_less, compare_leaf tk_b⟩]⟩,
        [⟨tk_eqeq, relational_leaf tk_c⟩]⟩, [])) := by
  refine ⟨?_, by rfl, by rfl⟩
  intro T vo term toks n rest h
  exact parse_binary_expression_shape vo term toks n rest h

/-- C1 witness: the general shape lemma applied to the concrete additive
parse of `a + b * c`. -/
theorem claim_C1_binary_precedence_shape_witness :
    is_additive_op
      (binary_term.mk tk_plus
        (⟨is_as_leaf tk_b, [⟨tk_star, is_as_leaf tk_c⟩]⟩ :
          multiplicative_expression_node)).op = true :=
  ((claim_C1_binary_precedence_shape.1 multiplicative_expression_node
      is_additive_op parse_multiplicative_expression
      [tk_a, tk_plus, tk_b, tk_star, tk_c]
      ⟨multiplicative_leaf tk_a,
        [⟨tk_plus, ⟨is_as_leaf tk_b, [⟨tk_star, is_as_leaf tk_c⟩]⟩⟩]⟩ []
      (by rfl)).2) _ (by simp)

/-! ## Lexer round trip: list and scanner helper lemmas -/

theorem takeWhile_append_stopped {p : Char → Bool} :
    ∀ (a : List Char) (x : Char) (y : List Char),
      (∀ c ∈ a, p c = true) → p x = false →
      (a ++ x :: y).takeWhile p = a := by
  intro a
  induction a with
  | nil =>
    intro x y _ hx
    simp [List.takeWhile_cons, hx]
  | cons c r ih =>
    intro x y ha hx
    have hc : p c = true := ha c (by simp)
    simp [List.takeWhile_cons, hc,
      ih x y (fun d hd => ha d (by simp [hd])) hx]

theorem scan_quoted_go_self (q : Char) :
    ∀ (l : List Char) (flag : Bool) (b rest : List Char),
      scan_quoted_go q l flag = some (b, rest) →
      ∀ x : List Char, scan_quoted_go q (b ++ x) flag = some (b, x) := by
  intro l
  induction l with
  | nil =>
    intro flag b rest h x
    simp [scan_quoted_go] at h
  | cons c r ih =>
    intro flag b rest h x
    cases flag with
    | true =>
      rw [scan_quoted_go, Option.map_eq_some'] at h
      obtain ⟨p, hp, heq⟩ := h
      have hb : c :: p.1 = b := congrArg Prod.fst heq
      subst hb
      rw [List.cons_append, scan_quoted_go,
        ih false p.1 p.2 (by rw [hp]) x]
      rfl
    | false =>
      rw [scan_quoted_go] at h
      by_cases hq : (c == q) = true
      · rw [if_pos hq] at h
        have hb : [q] = b := congrArg Prod.fst (Option.some.inj h)
        subst hb
        rw [List.cons_append, scan_quoted_go]
        simp
      · rw [if_neg hq] at h
        by_cases hesc : (c == '\\') = true
        · rw [if_pos hesc] at h
          rw [Option.map_eq_some'] at h
          obtain ⟨p, hp, heq⟩ := h
          have hb : c :: p.1 = b := congrArg Prod.fst heq
          subst hb
          rw [List.cons_append, scan_quoted_go, if_neg hq, if_pos hesc,
            ih true p.1 p.2 (by rw [hp]) x]
          rfl
        · rw [if_neg hesc] at h
          rw [Option.map_eq_some'] at h
          obtain ⟨p, hp, heq⟩ := h
          have hb : c :: p.1 = b := congrArg Prod.fst heq
          subst hb
          rw [List.cons_append, scan_quoted_go, if_neg hq, if_neg hesc,
            ih false p.1 p.2 (by rw [hp]) x]
          rfl

theorem isPrefixOf_append_self (s : List Char) (x : List Char) :
    s.isPrefixOf (s ++ x) = true := by
  induction s with
  | nil => simp [List.isPrefixOf]
  | cons a as ih => simp [List.isPrefixOf, ih]

theorem isPrefixOf_stable (s : List Char) :
    ∀ (t x y : List Char), s.length ≤ t.length →
      s.isPrefixOf (t ++ x) = s.isPrefixOf (t ++ y) := by
  induction s with
  | nil => intro t x y _; simp [List.isPrefixOf]
  | cons a as ih =>
    intro t x y hlen
    cases t with
    | nil => simp at hlen
    | cons b bs =>
      simp only [List.cons_append, List.isPrefixOf, List.append_eq]
      rw [ih bs x y (by simpa using hlen)]

theorem split_first_nil_seq : ∀ x : List Char, split_first [] x = some ([], x) := by
  intro x
  cases x with
  | nil => rfl
  | cons c r =>
    rw [split_first]
    simp [List.isPrefixOf]

theorem split_first_decomposition (seq : List Char) :
    ∀ (l b a : List Char), split_first seq l = some (b, a) →
      l = b ++ seq ++ a := by
  intro l
  induction l with
  | nil =>
    intro b a h
    rw [split_first] at h
    by_cases hp : seq.isPrefixOf ([] : List Char) = true
    · rw [if_pos hp] at h
      have hseq : seq = [] := by
        cases seq with
        | nil => rfl
        | cons c r => simp [List.isPrefixOf] at hp
      have hb : ([] : List Char) = b := congrArg Prod.fst (Option.some.inj h)
      have ha : ([] : List Char) = a := congrArg Prod.snd (Option.some.inj h)
      subst hb; subst ha; simp [hseq]
    · rw [if_neg hp] at h
      exact absurd h (by simp)
  | cons c r ih =>
    intro b a h
    rw [split_first] at h
    by_cases hp : seq.isPrefixOf (c :: r) = true
    · rw [if_pos hp] at h
      have hb : ([] : List Char) = b := congrArg Prod.fst (Option.some.inj h)
      have ha : (c :: r).drop seq.length = a :=
        congrArg Prod.snd (Option.some.inj h)
      subst hb
      have hpre : seq <+: c :: r := List.isPrefixOf_iff_prefix.mp hp
      obtain ⟨tail, htail⟩ := hpre
      rw [← htail] at ha
      rw [List.drop_left] at ha
      subst ha
      simp [← htail]
    · rw [if_neg hp] at h
      rw [Option.map_eq_some'] at h
      obtain ⟨p, hp2, heq⟩ := h
      have hb : c :: p.1 = b := congrArg Prod.fst heq
      have ha : p.2 = a := congrArg Prod.snd heq
      subst hb; subst ha
      have := ih p.1 p.2 hp2
      simp [this]

theorem split_first_self (seq : List Char) :
    ∀ (l b a : List Char), split_first seq l = some (b, a) →
      ∀ x : List Char, split_first seq (b ++ seq ++ x) = some (b, x) := by
  intro l
  induction l with
  | nil =>
    intro b a h x
    rw [split_first] at h
    by_cases hp : seq.isPrefixOf ([] : List Char) = true
    · rw [if_pos hp] at h
      have hseq : seq = [] := by
        cases seq with
        | nil => rfl
        | cons c r => simp [List.isPrefixOf] at hp
      have hb : ([] : List Char) = b := congrArg Prod.fst (Option.some.inj h)
      subst hb
      subst hseq
      simpa using split_first_nil_seq x
    · rw [if_neg hp] at h
      exact absurd h (by simp)
  | cons c r ih =>
    intro b a h x
    rw [split_first] at h
    by_cases hp : seq.isPrefixOf (c :: r) = true
    · rw [if_pos hp] at h
      have hb : ([] : List Char) = b := congrArg Prod.fst (Option.some.inj h)
      subst hb
      simp only [List.nil_append]
      cases hseq : seq with
      | nil => simpa using split_first_nil_seq x
      | cons s0 sr =>
        rw [← hseq]
        have hform : seq ++ x = s0 :: (sr ++ x) := by rw [hseq]; simp
        rw [hform, split_first, ← hform,
          if_pos (isPrefixOf_append_self seq x), List.drop_left]
    · rw [if_neg hp] at h
      rw [Option.map_eq_some'] at h
      obtain ⟨p, hp2, heq⟩ := h
      have hb : c :: p.1 = b := congrArg Prod.fst heq
      subst hb
      have hr : r = p.1 ++ seq ++ p.2 := split_first_decomposition seq r p.1 p.2 hp2
      have hstable : seq.isPrefixOf (c :: p.1 ++ seq ++ x) =
          seq.isPrefixOf (c :: r) := by
        rw [hr]
        have h1 : c :: p.1 ++ seq ++ x = (c :: p.1 ++ seq) ++ x := by simp
        have h2 : c :: (p.1 ++ seq ++ p.2) = (c :: p.1 ++ seq) ++ p.2 := by simp
        rw [h1, h2]
        exact isPrefixOf_stable seq (c :: p.1 ++ seq) x p.2 (by simp; omega)
      have hcons : c :: p.1 ++ seq ++ x = c :: (p.1 ++ seq ++ x) := by simp
      rw [hcons, split_first]
      rw [← hcons, hstable]
      rw [if_neg hp]
      rw [show p.1 ++ seq ++ x = p.1 ++ (seq ++ x) from by simp] at *
      rw [show (p.1 ++ (seq ++ x)) = p.1 ++ seq ++ x from by simp,
        ih p.1 p.2 hp2 x]
      rfl

/-- A character satisfying a class is not any character outside it. -/
theorem pred_ne_char (p : Char → Bool) (c d : Char) (h : p c = true)
    (hd : p d = false) : (c == d) = false := by
  apply Bool.eq_false_iff.mpr
  intro hb
  rw [beq_iff_eq] at hb
  subst hb
  rw [h] at hd
  simp at hd

/-- Identifier-start (nondigit) characters are not digits: the digit
range ends below both letter ranges and the underscore. -/
theorem is_nondigit_not_digit (c : Char) (h : is_nondigit c = true) :
    is_digit c = false := by
  simp only [is_nondigit, Bool.or_eq_true, Bool.and_eq_true,
    decide_eq_true_eq, beq_iff_eq] at h
  rcases h with (⟨h1, _⟩ | ⟨h1, _⟩) | h1
  · have h9 : ¬(c ≤ '9') := fun hc => absurd (le_trans h1 hc) (by decide)
    simp [is_digit, h9]
  · have h9 : ¬(c ≤ '9') := fun hc => absurd (le_trans h1 hc) (by decide)
    simp [is_digit, h9]
  · subst h1
    decide

/-- Every operator-table entry, lexed alone, yields exactly itself. -/
theorem relex_operator_table :
    ∀ e ∈ operator_table,
      (lex_line e.1 1 clean_lexer_state).tokens = [⟨e.1, ⟨1, 1⟩, e.2⟩] := by
  decide

/-- A successful table match returns a table entry. -/
theorem match_operator_mem_table (tbl : List (List Char × lexeme)) :
    ∀ (l op : List Char) (k : lexeme) (rest : List Char),
      (tbl.findSome? fun e =>
        if e.1.isPrefixOf l then some (e.1, e.2, l.drop e.1.length)
        else none) = some (op, k, rest) →
      (op, k) ∈ tbl := by
  induction tbl with
  | nil => intro l op k rest h; simp [List.findSome?] at h
  | cons e es ih =>
    intro l op k rest h
    by_cases hp : e.1.isPrefixOf l = true
    · simp only [List.findSome?_cons, hp, if_true] at h
      have h1 : e.1 = op := congrArg (fun x => x.1) (Option.some.inj h)
      have h2 : e.2 = k := congrArg (fun x => x.2.1) (Option.some.inj h)
      rw [← h1, ← h2]
      exact List.mem_cons_self e es
    · simp only [List.findSome?_cons, hp] at h
      simp only [Bool.false_eq_true, if_false] at h
      exact List.mem_cons_of_mem e (ih l op k rest h)

/-- Lexing an empty line in the clean state yields nothing. -/
theorem lex_line_go_nil (lineno : Int) (fuel : Nat) (col : Int) :
    lex_line_go lineno fuel [] col clean_lexer_state =
      stop_with [] clean_lexer_state := by
  cases fuel <;> rfl

/-- Re-scan of a pure digit/separator run is that run as one decimal
literal. -/
theorem scan_number_all_digits (c : Char) (ds : List Char)
    (hall : ∀ x ∈ ds, digit_or_separator x = true) :
    scan_number c ds = (c :: ds, lexeme.DecimalLiteral, []) := by
  have htw : ds.takeWhile digit_or_separator = ds :=
    List.takeWhile_eq_self_iff.mpr hall
  cases ds with
  | nil => rfl
  | cons d1 ds1 =>
    cases ds1 with
    | nil =>
      have h1 : digit_or_separator d1 = true := hall d1 (by simp)
      simp [scan_number, scan_decimal, List.takeWhile_cons, h1]
    | cons d2 ds2 =>
      have h1 : digit_or_separator d1 = true := hall d1 (by simp)
      have hb : (d1 == 'b') = false := pred_ne_char _ d1 'b' h1 (by decide)
      have hB : (d1 == 'B') = false := pred_ne_char _ d1 'B' h1 (by decide)
      have hx : (d1 == 'x') = false := pred_ne_char _ d1 'x' h1 (by decide)
      have hX : (d1 == 'X') = false := pred_ne_char _ d1 'X' h1 (by decide)
      rw [scan_number]
      rw [if_neg (by simp [hb, hB]), if_neg (by simp [hx, hX])]
      rw [scan_decimal]
      simp only [htw, List.drop_length]

/-- Re-scan of digits, a decimal point, then digits, is one float
literal. -/
theorem scan_number_float_shape (c : Char) (ds fs : List Char) (f : Char)
    (hds : ∀ x ∈ ds, digit_or_separator x = true)
    (hf : is_digit f = true)
    (hfs : ∀ x ∈ fs, digit_or_separator x = true) :
    scan_number c (ds ++ '.' :: f :: fs) =
      (c :: ds ++ '.' :: f :: fs, lexeme.FloatLiteral, []) := by
  have hpdot : digit_or_separator '.' = false := by decide
  have hpf : digit_or_separator f = true := by
    simp [digit_or_separator, is_separator_or, hf]
  have htwfs : (f :: fs).takeWhile digit_or_separator = f :: fs :=
    List.takeWhile_eq_self_iff.mpr (by
      intro x hx
      rcases List.mem_cons.mp hx with h | h
      · rw [h]; exact hpf
      · exact hfs x h)
  have htw : (ds ++ '.' :: f :: fs).takeWhile digit_or_separator = ds :=
    takeWhile_append_stopped ds '.' (f :: fs) hds hpdot
  have hdrop : (ds ++ '.' :: f :: fs).drop ds.length = '.' :: f :: fs :=
    List.drop_left ds ('.' :: f :: fs)
  have hdec : scan_decimal c (ds ++ '.' :: f :: fs) =
      (c :: ds ++ '.' :: f :: fs, lexeme.FloatLiteral, []) := by
    rw [scan_decimal]
    simp only [htw, hdrop]
    rw [if_pos (by simp [hf])]
    simp only [htwfs, List.drop_length]
  cases ds with
  | nil =>
    cases hform : ([] : List Char) ++ '.' :: f :: fs with
    | nil => simp at hform
    | cons e1 rest1 =>
      have he1 : e1 = '.' := by simp at hform; exact hform.1.symm
      cases rest1 with
      | nil => simp at hform
      | cons e2 rest2 =>
        simp only [List.nil_append] at hform hdec ⊢
        obtain ⟨h1, h2, h3⟩ : e1 = '.' ∧ e2 = f ∧ rest2 = fs := by
          simp at hform
          exact ⟨hform.1.symm, hform.2.1.symm, hform.2.2.symm⟩
        subst h1; subst h2; subst h3
        rw [scan_number]
        rw [if_neg (by simp), if_neg (by simp)]
        exact hdec
  | cons d1 ds1 =>
    have h1 : digit_or_separator d1 = true := hds d1 (by simp)
    have hb : (d1 == 'b') = false := pred_ne_char _ d1 'b' h1 (by decide)
    have hB : (d1 == 'B') = false := pred_ne_char _ d1 'B' h1 (by decide)
    have hx : (d1 == 'x') = false := pred_ne_char _ d1 'x' h1 (by decide)
    have hX : (d1 == 'X') = false := pred_ne_char _ d1 'X' h1 (by decide)
    cases hform : ds1 ++ '.' :: f :: fs with
    | nil => simp at hform
    | cons e2 rest2 =>
      have hlist : (d1 :: ds1) ++ '.' :: f :: fs = d1 :: e2 :: rest2 := by
        simp [hform]
      rw [hlist] at hdec ⊢
      rw [scan_number]
      rw [if_neg (by simp [hb, hB]), if_neg (by simp [hx, hX])]
      exact hdec

/-- Re-scan of a binary literal body. -/
theorem scan_number_binary_shape (c b d : Char) (ds1 : List Char)
    (hc : c = '0') (hb : (b == 'b' || b == 'B') = true)
    (hd : is_binary_digit d = true)
    (hall : ∀ x ∈ ds1, binary_digit_or_separator x = true) :
    scan_number c (b :: d :: ds1) =
      (c :: b :: d :: ds1, lexeme.BinaryLiteral, []) := by
  have htw : (d :: ds1).takeWhile binary_digit_or_separator = d :: ds1 :=
    List.takeWhile_eq_self_iff.mpr (by
      intro x hx
      rcases List.mem_cons.mp hx with h | h
      · rw [h]; simp [binary_digit_or_separator, is_separator_or, hd]
      · exact hall x h)
  subst hc
  rw [scan_number]
  rw [if_pos (by simp [hb, hd])]
  simp only [htw, List.drop_length]

/-- Re-scan of a hexadecimal literal body. -/
theorem scan_number_hex_shape (c b d : Char) (ds1 : List Char)
    (hc : c = '0') (hb : (b == 'x' || b == 'X') = true)
    (hd : is_hexadecimal_digit d = true)
    (hall : ∀ x ∈ ds1, hexadecimal_digit_or_separator x = true) :
    scan_number c (b :: d :: ds1) =
      (c :: b :: d :: ds1, lexeme.HexadecimalLiteral, []) := by
  have htw : (d :: ds1).takeWhile hexadecimal_digit_or_separator = d :: ds1 :=
    List.takeWhile_eq_self_iff.mpr (by
      intro x hx
      rcases List.mem_cons.mp hx with h | h
      · rw [h]; simp [hexadecimal_digit_or_separator, is_separator_or, hd]
      · exact hall x h)
  subst hc
  have hbb : (b == 'b' || b == 'B') = false := by
    rcases Bool.or_eq_true_iff.mp hb with h | h <;>
      · rw [beq_iff_eq] at h; subst h; decide
  rw [scan_number]
  rw [if_neg (by simp [hbb]), if_pos (by simp [hb, hd])]
  simp only [htw, List.drop_length]

/-- What `scan_decimal` produces: a float token over digits, point,
digits, or a decimal token over the leading digit run. -/
theorem scan_decimal_shape (c : Char) (r : List Char) :
    (∃ d0 rr0,
      r.drop (r.takeWhile digit_or_separator).length = '.' :: d0 :: rr0 ∧
      is_digit d0 = true ∧
      (scan_decimal c r).1 =
        c :: r.takeWhile digit_or_separator ++
          '.' :: (d0 :: rr0).takeWhile digit_or_separator ∧
      (scan_decimal c r).2.1 = lexeme.FloatLiteral) ∨
    ((scan_decimal c r).1 = c :: r.takeWhile digit_or_separator ∧
     (scan_decimal c r).2.1 = lexeme.DecimalLiteral) := by
  cases hrest : r.drop (r.takeWhile digit_or_separator).length with
  | nil =>
    right
    rw [scan_decimal]
    simp only [hrest]
    simp
  | cons p0 rest1 =>
    cases rest1 with
    | nil =>
      right
      rw [scan_decimal]
      simp only [hrest]
      simp
    | cons d0 rr0 =>
      by_cases hcond : (p0 == '.' && is_digit d0) = true
      · left
        have hparts := (Bool.and_eq_true _ _).mp hcond
        have hp0 : p0 = '.' := beq_iff_eq.mp hparts.1
        refine ⟨d0, rr0, ?_, hparts.2, ?_, ?_⟩
        · rw [hp0]
        · rw [scan_decimal]
          simp only [hrest]
          rw [if_pos hcond, hp0]
        · rw [scan_decimal]
          simp only [hrest]
          rw [if_pos hcond]
      · right
        constructor <;>
          · rw [scan_decimal]
            simp only [hrest]
            rw [if_neg hcond]

/-- The self-re-scan property of `scan_number`: a produced numeric token
text, scanned alone, yields the same text and kind with nothing left. -/
theorem scan_number_self (c : Char) (r text : List Char) (kind : lexeme)
    (after : List Char) (h : scan_number c r = (text, kind, after)) :
    ∃ ts, text = c :: ts ∧ scan_number c ts = (text, kind, []) := by
  cases r with
  | nil =>
    have heval : scan_number c [] = ([c], lexeme.DecimalLiteral, []) := rfl
    rw [heval] at h
    have ht : [c] = text := congrArg Prod.fst h
    have hk : lexeme.DecimalLiteral = kind := congrArg (fun x => x.2.1) h
    exact ⟨[], ht.symm, by rw [heval, ht, hk]⟩
  | cons b r2 =>
    cases r2 with
    | nil =>
      by_cases hb : digit_or_separator b = true
      · have heval : scan_number c [b] =
            (c :: [b], lexeme.DecimalLiteral, []) :=
          scan_number_all_digits c [b] (by
            intro x hx
            simp at hx
            rw [hx]
            exact hb)
        rw [heval] at h
        have ht : c :: [b] = text := congrArg Prod.fst h
        have hk : lexeme.DecimalLiteral = kind := congrArg (fun x => x.2.1) h
        exact ⟨[b], ht.symm, by rw [heval, ht, hk]⟩
      · have hbf : digit_or_separator b = false := Bool.eq_false_iff.mpr hb
        have heval : scan_number c [b] = ([c], lexeme.DecimalLiteral, [b]) := by
          rw [show scan_number c [b] = scan_decimal c [b] from rfl,
            scan_decimal]
          simp [List.takeWhile_cons, hbf]
        rw [heval] at h
        have ht : [c] = text := congrArg Prod.fst h
        have hk : lexeme.DecimalLiteral = kind := congrArg (fun x => x.2.1) h
        refine ⟨[], ht.symm, ?_⟩
        have heval0 : scan_number c [] = ([c], lexeme.DecimalLiteral, []) := rfl
        rw [heval0, ht, hk]
    | cons d rr =>
      by_cases h1 :
          (c == '0' && (b == 'b' || b == 'B') && is_binary_digit d) = true
      · have hparts := (Bool.and_eq_true _ _).mp h1
        have hparts2 := (Bool.and_eq_true _ _).mp hparts.1
        have hc : c = '0' := beq_iff_eq.mp hparts2.1
        have hdbin : is_binary_digit d = true := hparts.2
        have hdbs : binary_digit_or_separator d = true := by
          simp [binary_digit_or_separator, is_separator_or, hdbin]
        have htw : (d :: rr).takeWhile binary_digit_or_separator =
            d :: rr.takeWhile binary_digit_or_separator := by
          simp [List.takeWhile_cons, hdbs]
        rw [scan_number, if_pos h1, htw] at h
        have ht : c :: b :: d :: rr.takeWhile binary_digit_or_separator =
            text := congrArg Prod.fst h
        have hk : lexeme.BinaryLiteral = kind := congrArg (fun x => x.2.1) h
        refine ⟨b :: d :: rr.takeWhile binary_digit_or_separator,
          ht.symm, ?_⟩
        rw [scan_number_binary_shape c b d _ hc hparts2.2 hdbin
          (fun x hx => List.mem_takeWhile_imp hx), ht, hk]
      · by_cases h2 :
            (c == '0' && (b == 'x' || b == 'X') &&
              is_hexadecimal_digit d) = true
        · have hparts := (Bool.and_eq_true _ _).mp h2
          have hparts2 := (Bool.and_eq_true _ _).mp hparts.1
          have hc : c = '0' := beq_iff_eq.mp hparts2.1
          have hdhex : is_hexadecimal_digit d = true := hparts.2
          have hdhs : hexadecimal_digit_or_separator d = true := by
            simp [hexadecimal_digit_or_separator, is_separator_or, hdhex]
          have htw : (d :: rr).takeWhile hexadecimal_digit_or_separator =
              d :: rr.takeWhile hexadecimal_digit_or_separator := by
            simp [List.takeWhile_cons, hdhs]
          rw [scan_number, if_neg h1, if_pos h2, htw] at h
          have ht : c :: b :: d :: rr.takeWhile hexadecimal_digit_or_separator
              = text := congrArg Prod.fst h
          have hk : lexeme.HexadecimalLiteral = kind :=
            congrArg (fun x => x.2.1) h
          refine ⟨b :: d :: rr.takeWhile hexadecimal_digit_or_separator,
            ht.symm, ?_⟩
          rw [scan_number_hex_shape c b d _ hc hparts2.2 hdhex
            (fun x hx => List.mem_takeWhile_imp hx), ht, hk]
        · rw [scan_number, if_neg h1, if_neg h2] at h
          have hds : ∀ x ∈ (b :: d :: rr).takeWhile digit_or_separator,
              digit_or_separator x = true :=
            fun x hx => List.mem_takeWhile_imp hx
          rcases scan_decimal_shape c (b :: d :: rr) with
            ⟨d0, rr0, _, hd0, htext, hkind⟩ | ⟨htext, hkind⟩
          · have hpd0 : digit_or_separator d0 = true := by
              simp [digit_or_separator, is_separator_or, hd0]
            have htwfs : (d0 :: rr0).takeWhile digit_or_separator =
                d0 :: rr0.takeWhile digit_or_separator := by
              simp [List.takeWhile_cons, hpd0]
            have hfst : (scan_decimal c (b :: d :: rr)).1 = text :=
              congrArg Prod.fst h
            have hsnd : (scan_decimal c (b :: d :: rr)).2.1 = kind :=
              congrArg (fun x => x.2.1) h
            have ht : text =
                c :: ((b :: d :: rr).takeWhile digit_or_separator ++
                  '.' :: d0 :: rr0.takeWhile digit_or_separator) := by
              rw [← hfst, htext, htwfs]
              simp
            have hk : kind = lexeme.FloatLiteral := by
              rw [← hsnd, hkind]
            refine ⟨(b :: d :: rr).takeWhile digit_or_separator ++
              '.' :: d0 :: rr0.takeWhile digit_or_separator, ht, ?_⟩
            rw [scan_number_float_shape c _ _ d0 hds hd0
              (fun x hx => List.mem_takeWhile_imp hx), ht, hk]
            simp
          · have hfst : (scan_decimal c (b :: d :: rr)).1 = text :=
              congrArg Prod.fst h
            have hsnd : (scan_decimal c (b :: d :: rr)).2.1 = kind :=
              congrArg (fun x => x.2.1) h
            have ht : text =
                c :: (b :: d :: rr).takeWhile digit_or_separator := by
              rw [← hfst, htext]
            have hk : kind = lexeme.DecimalLiteral := by
              rw [← hsnd, hkind]
            refine ⟨(b :: d :: rr).takeWhile digit_or_separator, ht, ?_⟩
            rw [scan_number_all_digits c _ hds, ht, hk]

/-! ## Re-lexing each kind of produced token in isolation -/

theorem relex_identifier (c : Char) (tw : List Char)
    (hs : is_identifier_start c = true)
    (hall : ∀ d ∈ tw, is_identifier_continue d = true) :
    (lex_line (c :: tw) 1 clean_lexer_state).tokens =
      [⟨c :: tw, ⟨1, 1⟩, identifier_kind (c :: tw)⟩] := by
  have hdig : is_digit c = false := is_nondigit_not_digit c hs
  have hsp : (c == ' ') = false := pred_ne_char _ c ' ' hs (by decide)
  have htb : (c == '\t') = false := pred_ne_char _ c '\t' hs (by decide)
  have hsl : (c == '/') = false := pred_ne_char _ c '/' hs (by decide)
  have hq : (c == '"') = false := pred_ne_char _ c '"' hs (by decide)
  have hap : (c == digit_separator) = false :=
    pred_ne_char _ c digit_separator hs (by decide)
  have hRq : (c == 'R' && tw.head? == some '"') = false := by
    cases htw0 : tw with
    | nil => simp
    | cons d ds =>
      have hd : is_identifier_continue d = true := hall d (by simp [htw0])
      have hdq : (d == '"') = false := pred_ne_char _ d '"' hd (by decide)
      simp only [List.head?_cons, Bool.and_eq_false_iff]
      right
      simpa using hdq
  have htws : tw.takeWhile is_identifier_continue = tw :=
    List.takeWhile_eq_self_iff.mpr hall
  rw [lex_line]
  rw [show (c :: tw).length + 1 = tw.length + 1 + 1 from by simp]
  rw [lex_line_go]
  have hrs : clean_lexer_state.raw_string_multiline = none := rfl
  have hic : clean_lexer_state.in_comment = false := rfl
  simp only [hrs, hic, Bool.false_eq_true, if_false]
  rw [if_neg (by rw [hsp, htb]; simp)]
  rw [if_neg (by rw [hsl]; simp)]
  rw [if_neg (by rw [hsl]; simp)]
  rw [if_neg (by rw [hRq]; simp)]
  rw [if_neg (by rw [hq]; simp)]
  rw [if_neg (by rw [hap]; simp)]
  rw [if_neg (by rw [hdig]; simp)]
  rw [if_pos hs]
  simp only [htws, List.drop_length]
  rw [lex_line_go_nil]
  rfl

theorem relex_number (c : Char) (r text : List Char) (kind : lexeme)
    (after : List Char) (hdig : is_digit c = true)
    (h : scan_number c r = (text, kind, after)) :
    (lex_line text 1 clean_lexer_state).tokens =
      [⟨text, ⟨1, 1⟩, kind⟩] := by
  obtain ⟨ts, htext, hself⟩ := scan_number_self c r text kind after h
  subst htext
  have hsp : (c == ' ') = false := pred_ne_char _ c ' ' hdig (by decide)
  have htb : (c == '\t') = false := pred_ne_char _ c '\t' hdig (by decide)
  have hsl : (c == '/') = false := pred_ne_char _ c '/' hdig (by decide)
  have hR : (c == 'R') = false := pred_ne_char _ c 'R' hdig (by decide)
  have hq : (c == '"') = false := pred_ne_char _ c '"' hdig (by decide)
  have hap : (c == digit_separator) = false :=
    pred_ne_char _ c digit_separator hdig (by decide)
  rw [lex_line]
  rw [show (c :: ts).length + 1 = ts.length + 1 + 1 from by simp]
  rw [lex_line_go]
  have hrs : clean_lexer_state.raw_string_multiline = none := rfl
  have hic : clean_lexer_state.in_comment = false := rfl
  simp only [hrs, hic, Bool.false_eq_true, if_false]
  rw [if_neg (by rw [hsp, htb]; simp)]
  rw [if_neg (by rw [hsl]; simp)]
  rw [if_neg (by rw [hsl]; simp)]
  rw [if_neg (by rw [hR]; simp)]
  rw [if_neg (by rw [hq]; simp)]
  rw [if_neg (by rw [hap]; simp)]
  rw [if_pos hdig]
  simp only [hself]
  rw [lex_line_go_nil]
  rfl

theorem relex_string (r body after : List Char)
    (h : scan_quoted '"' r = some (body, after)) :
    (lex_line ('"' :: body) 1 clean_lexer_state).tokens =
      [⟨'"' :: body, ⟨1, 1⟩, .StringLiteral⟩] := by
  have hself : scan_quoted '"' body = some (body, []) := by
    have := scan_quoted_go_self '"' r false body after h []
    simpa [scan_quoted] using this
  rw [lex_line]
  rw [show ('"' :: body).length + 1 = body.length + 1 + 1 from by simp]
  rw [lex_line_go]
  have hrs : clean_lexer_state.raw_string_multiline = none := rfl
  have hic : clean_lexer_state.in_comment = false := rfl
  simp only [hrs, hic, Bool.false_eq_true, if_false]
  rw [if_neg (by decide)]
  rw [if_neg (by simp)]
  rw [if_neg (by simp)]
  rw [if_neg (by simp)]
  rw [if_pos (by decide)]
  rw [hself]
  simp only []
  rw [lex_line_go_nil]
  rfl

theorem relex_character (r body after : List Char)
    (h : scan_quoted digit_separator r = some (body, after)) :
    (lex_line (digit_separator :: body) 1 clean_lexer_state).tokens =
      [⟨digit_separator :: body, ⟨1, 1⟩, .CharacterLiteral⟩] := by
  have hself : scan_quoted digit_separator body = some (body, []) := by
    have := scan_quoted_go_self digit_separator r false body after h []
    simpa [scan_quoted] using this
  rw [lex_line]
  rw [show (digit_separator :: body).length + 1 = body.length + 1 + 1 from
    by simp]
  rw [lex_line_go]
  have hrs : clean_lexer_state.raw_string_multiline = none := rfl
  have hic : clean_lexer_state.in_comment = false := rfl
  simp only [hrs, hic, Bool.false_eq_true, if_false]
  rw [if_neg (by decide)]
  rw [if_neg (by rw [show (digit_separator == '/') = false from by decide]; simp)]
  rw [if_neg (by rw [show (digit_separator == '/') = false from by decide]; simp)]
  rw [if_neg (by rw [show (digit_separator == 'R') = false from by decide]; simp)]
  rw [if_neg (by decide)]
  rw [if_pos (by decide)]
  rw [hself]
  simp only []
  rw [lex_line_go_nil]
  rfl

theorem relex_raw_string (delim content after body : List Char)
    (hdall : ∀ x ∈ delim, (x != '(') = true)
    (hsplit : split_first (')' :: (delim ++ ['"'])) body =
      some (content, after)) :
    (lex_line
        ('R' :: '"' :: (delim ++ '(' :: (content ++ ')' :: (delim ++ ['"']))))
        1 clean_lexer_state).tokens =
      [⟨'R' :: '"' :: (delim ++ '(' :: (content ++ ')' :: (delim ++ ['"']))),
        ⟨1, 1⟩, .StringLiteral⟩] := by
  have hself : split_first (')' :: (delim ++ ['"']))
      (content ++ ')' :: (delim ++ ['"'])) = some (content, []) := by
    have := split_first_self (')' :: (delim ++ ['"'])) body content after
      hsplit []
    simpa using this
  have htw : (delim ++ '(' :: (content ++ ')' :: (delim ++ ['"']))).takeWhile
      (fun x => x != '(') = delim :=
    takeWhile_append_stopped delim '(' _ hdall (by decide)
  have hdrop : (delim ++ '(' :: (content ++ ')' :: (delim ++ ['"']))).drop
      delim.length = '(' :: (content ++ ')' :: (delim ++ ['"'])) :=
    List.drop_left delim _
  rw [lex_line, lex_line_go]
  have hrs : clean_lexer_state.raw_string_multiline = none := rfl
  have hic : clean_lexer_state.in_comment = false := rfl
  simp only [hrs, hic, Bool.false_eq_true, if_false]
  rw [if_neg (by decide)]
  rw [if_neg (by simp)]
  rw [if_neg (by simp)]
  rw [if_pos (by simp)]
  rw [show ('"' :: (delim ++ '(' ::
      (content ++ ')' :: (delim ++ ['"'])))).drop 1 =
    delim ++ '(' :: (content ++ ')' :: (delim ++ ['"'])) from rfl]
  rw [htw, hdrop]
  simp only [List.cons_append]
  rw [if_pos (show (('(' : Char) == '(') = true from by decide)]
  rw [hself]
  simp only []
  rw [lex_line_go_nil]
  simp [cons_token, stop_with, List.cons_append, List.append_assoc]

theorem mem_takeWhile_not_paren {l : List Char} {x : Char}
    (hx : x ∈ l.takeWhile (fun y => y != '(')) : (x != '(') = true :=
  @List.mem_takeWhile_imp Char (fun y => y != '(') l x hx

theorem stop_with_tokens (e : List error_entry) (st : lexer_state) :
    (stop_with e st).tokens = [] := rfl

/-- Every token the line lexer produces, re-lexed alone from a clean
state, yields exactly one token with the same text and kind. -/
theorem lex_line_go_relex (lineno : Int) :
    ∀ (fuel : Nat) (l : List Char) (col : Int) (st : lexer_state),
      ∀ t ∈ (lex_line_go lineno fuel l col st).tokens,
        (lex_line t.sv 1 clean_lexer_state).tokens =
          [⟨t.sv, ⟨1, 1⟩, t.lex_type⟩] := by
  intro fuel
  induction fuel with
  | zero =>
    intro l col st t ht
    simp [lex_line_go, stop_with] at ht
  | succ fuel ih =>
    intro l col st t ht
    cases l with
    | nil =>
      rw [lex_line_go] at ht
      split at ht
      · split at ht
        · exact ih _ _ _ t ht
        · rw [stop_with_tokens] at ht
          exact absurd ht (List.not_mem_nil t)
      · by_cases hic : st.in_comment = true
        · rw [if_pos hic] at ht
          split at ht
          · simp only [cons_comment] at ht
            exact ih _ _ _ t ht
          · rw [stop_with_tokens] at ht
            exact absurd ht (List.not_mem_nil t)
        · rw [if_neg hic] at ht
          rw [stop_with_tokens] at ht
          exact absurd ht (List.not_mem_nil t)
    | cons c r =>
      rw [lex_line_go] at ht
      split at ht
      · split at ht
        · exact ih _ _ _ t ht
        · rw [stop_with_tokens] at ht
          exact absurd ht (List.not_mem_nil t)
      · by_cases hic : st.in_comment = true
        · rw [if_pos hic] at ht
          split at ht
          · simp only [cons_comment] at ht
            exact ih _ _ _ t ht
          · rw [stop_with_tokens] at ht
            exact absurd ht (List.not_mem_nil t)
        · rw [if_neg hic] at ht
          by_cases hws : (c == ' ' || c == '\t') = true
          · rw [if_pos hws] at ht
            exact ih _ _ _ t ht
          · rw [if_neg hws] at ht
            by_cases hlc : (c == '/' && r.head? == some '/') = true
            · rw [if_pos hlc] at ht
              exact absurd ht (List.not_mem_nil t)
            · rw [if_neg hlc] at ht
              by_cases hbc : (c == '/' && r.head? == some '*') = true
              · rw [if_pos hbc] at ht
                split at ht
                · simp only [cons_comment] at ht
                  exact ih _ _ _ t ht
                · rw [stop_with_tokens] at ht
                  exact absurd ht (List.not_mem_nil t)
              · rw [if_neg hbc] at ht
                by_cases hraw : (c == 'R' && r.head? == some '"') = true
                · rw [if_pos hraw] at ht
                  simp only [] at ht
                  split at ht
                  · rename_i paren body heq2
                    by_cases hpar : (paren == '(') = true
                    · rw [if_pos hpar] at ht
                      split at ht
                      · rename_i content aft heq3
                        simp only [cons_token, List.mem_cons] at ht
                        rcases ht with ht1 | ht2
                        · have hpar2 : paren = '(' := beq_iff_eq.mp hpar
                          subst hpar2
                          have hsplit2 : split_first
                              (')' :: ((r.drop 1).takeWhile
                                (fun x => x != '(') ++ ['"'])) body =
                              some (content, aft) := by
                            simpa using heq3
                          have hrx := relex_raw_string
                            ((r.drop 1).takeWhile (fun x => x != '('))
                            content aft body
                            (fun x hx => mem_takeWhile_not_paren hx)
                            hsplit2
                          rw [ht1]
                          simp only [List.cons_append, List.append_assoc]
                            at hrx ⊢
                          exact hrx
                        · exact ih _ _ _ t ht2
                      · rw [stop_with_tokens] at ht
                        exact absurd ht (List.not_mem_nil t)
                    · rw [if_neg hpar] at ht
                      rw [stop_with_tokens] at ht
                      exact absurd ht (List.not_mem_nil t)
                  · rw [stop_with_tokens] at ht
                    exact absurd ht (List.not_mem_nil t)
                · rw [if_neg hraw] at ht
                  by_cases hq : (c == '"') = true
                  · rw [if_pos hq] at ht
                    split at ht
                    · rename_i body aft heq4
                      simp only [cons_token, List.mem_cons] at ht
                      rcases ht with ht1 | ht2
                      · have hc : c = '"' := beq_iff_eq.mp hq
                        subst hc
                        rw [ht1]
                        exact relex_string r body aft heq4
                      · exact ih _ _ _ t ht2
                    · rw [stop_with_tokens] at ht
                      exact absurd ht (List.not_mem_nil t)
                  · rw [if_neg hq] at ht
                    by_cases hap : (c == digit_separator) = true
                    · rw [if_pos hap] at ht
                      split at ht
                      · rename_i body aft heq5
                        simp only [cons_token, List.mem_cons] at ht
                        rcases ht with ht1 | ht2
                        · have hc : c = digit_separator := beq_iff_eq.mp hap
                          subst hc
                          rw [ht1]
                          exact relex_character r body aft heq5
                        · exact ih _ _ _ t ht2
                      · rw [stop_with_tokens] at ht
                        exact absurd ht (List.not_mem_nil t)
                    · rw [if_neg hap] at ht
                      by_cases hdig : is_digit c = true
                      · rw [if_pos hdig] at ht
                        simp only [cons_token, List.mem_cons] at ht
                        rcases ht with ht1 | ht2
                        · rw [ht1]
                          exact relex_number c r (scan_number c r).1
                            (scan_number c r).2.1 (scan_number c r).2.2
                            hdig rfl
                        · exact ih _ _ _ t ht2
                      · rw [if_neg hdig] at ht
                        by_cases hid : is_identifier_start c = true
                        · rw [if_pos hid] at ht
                          simp only [cons_token, List.mem_cons] at ht
                          rcases ht with ht1 | ht2
                          · rw [ht1]
                            exact relex_identifier c
                              (r.takeWhile is_identifier_continue) hid
                              (fun d hd => List.mem_takeWhile_imp hd)
                          · exact ih _ _ _ t ht2
                        · rw [if_neg hid] at ht
                          split at ht
                          · rename_i op kk aft heq6
                            simp only [cons_token, List.mem_cons] at ht
                            rcases ht with ht1 | ht2
                            · have hmem : (op, kk) ∈ operator_table :=
                                match_operator_mem_table operator_table
                                  (c :: r) op kk aft heq6
                              rw [ht1]
                              simpa using relex_operator_table (op, kk) hmem
                            · exact ih _ _ _ t ht2
                          · simp only [cons_error] at ht
                            exact ih _ _ _ t ht

/-- C4: for every token produced by `lex_line`, re-lexing the exact
textual span the token references, alone and from a clean state, yields
a token of the same lexeme kind and the same text. -/
theorem claim_C4_token_relex_roundtrip (l : List Char) (lineno : Int)
    (st : lexer_state) :
    ∀ t ∈ (lex_line l lineno st).tokens,
      (lex_line t.sv 1 clean_lexer_state).tokens.map
        (fun u => (u.sv, u.lex_type)) = [(t.sv, t.lex_type)] := by
  intro t ht
  rw [lex_line] at ht
  rw [lex_line_go_relex lineno (l.length + 1) l 1 st t ht]
  rfl

/-- C4 witness: the identifier token `int` produced from lexing
`x: int = 5;`. -/
theorem claim_C4_token_relex_roundtrip_witness :
    (lex_line (['i', 'n', 't'] : List Char) 1 clean_lexer_state).tokens.map
        (fun u => (u.sv, u.lex_type)) =
      [((['i', 'n', 't'] : List Char), lexeme.Identifier)] :=
  claim_C4_token_relex_roundtrip "x: int = 5;".toList 1 clean_lexer_state
    ⟨['i', 'n', 't'], ⟨1, 4⟩, lexeme.Identifier⟩ (by decide)

/-- A line that is exactly a raw-string opener whose closing sequence
does not occur in the rest of the line leaves an open raw-string state
positioned at the opener. -/
theorem lex_line_raw_open (delim content : List Char)
    (hdall : ∀ x ∈ delim, (x != '(') = true)
    (hnc : split_first (')' :: delim ++ ['"']) content = none) :
    lex_line ('R' :: '"' :: (delim ++ '(' :: content)) 1 clean_lexer_state =
      stop_with []
        { clean_lexer_state with
          raw_string_multiline :=
            some ⟨⟨1, 1⟩, content, 'R' :: '"' :: delim ++ ['('],
              ')' :: delim ++ ['"']⟩ } := by
  have htw : (delim ++ '(' :: content).takeWhile (fun x => x != '(') =
      delim := takeWhile_append_stopped delim '(' content hdall (by decide)
  have hdrop : (delim ++ '(' :: content).drop delim.length =
      '(' :: content := List.drop_left delim _
  rw [lex_line, lex_line_go]
  have hrs : clean_lexer_state.raw_string_multiline = none := rfl
  have hic : clean_lexer_state.in_comment = false := rfl
  simp only [hrs, hic, Bool.false_eq_true, if_false]
  rw [if_neg (by decide)]
  rw [if_neg (by simp)]
  rw [if_neg (by simp)]
  rw [if_pos (by simp)]
  rw [show ('"' :: (delim ++ '(' :: content)).drop 1 =
    delim ++ '(' :: content from rfl]
  rw [htw, hdrop]
  simp only []
  rw [if_pos (show (('(' : Char) == '(') = true from by decide)]
  rw [hnc]

/-- C5: a raw-string literal whose closing delimiter never appears
before the end of the file produces exactly one lexical error,
positioned at the opening delimiter; the lexer recovers, so the tokens
of the file are exactly the tokens of the subsequent lines lexed
independently, and parsing of subsequent, independent declarations still
succeeds. -/
theorem claim_C5_unterminated_raw_string_recovery
    (delim content : List Char) (rest : List (List Char))
    (hdall : ∀ x ∈ delim, (x != '(') = true)
    (hnc : split_first (')' :: delim ++ ['"']) content = none)
    (hrest : ∀ l2 ∈ rest, contains_seq (')' :: delim ++ ['"']) l2 = false) :
    (lex_file (('R' :: '"' :: (delim ++ '(' :: content)) :: rest) 1).tokens =
      (lex_file rest 2).tokens ∧
    (lex_file (('R' :: '"' :: (delim ++ '(' :: content)) :: rest) 1).errors =
      ⟨⟨1, 1⟩, unterminated_raw_string_message, false, false⟩ ::
        (lex_file rest 2).errors ∧
    ((lex_file rest 2).errors = [] →
      (lex_file (('R' :: '"' :: (delim ++ '(' :: content)) :: rest) 1).errors
        = [⟨⟨1, 1⟩, unterminated_raw_string_message, false, false⟩]) ∧
    parse_translation_unit
        (lex_file (('R' :: '"' :: (delim ++ '(' :: content)) :: rest)
          1).tokens =
      parse_translation_unit (lex_file rest 2).tokens := by
  have hany : rest.any
      (fun l2 => contains_seq (')' :: delim ++ ['"']) l2) = false := by
    rw [List.any_eq_false]
    intro l2 hl2
    simpa using hrest l2 hl2
  have hfile : lex_file (('R' :: '"' :: (delim ++ '(' :: content)) :: rest) 1
      = append_result
          (stop_with []
            { clean_lexer_state with
              raw_string_multiline :=
                some ⟨⟨1, 1⟩, content, 'R' :: '"' :: delim ++ ['('],
                  ')' :: delim ++ ['"']⟩ })
          [⟨⟨1, 1⟩, unterminated_raw_string_message, false, false⟩]
          (lex_file rest 2) := by
    rw [lex_file, lex_file_go]
    rw [lex_line_raw_open delim content hdall hnc]
    rw [show (stop_with ([] : List error_entry)
        { clean_lexer_state with
          raw_string_multiline :=
            some ⟨⟨1, 1⟩, content, 'R' :: '"' :: delim ++ ['('],
              ')' :: delim ++ ['"']⟩ }).st.raw_string_multiline =
        some (⟨⟨1, 1⟩, content, 'R' :: '"' :: delim ++ ['('],
          ')' :: delim ++ ['"']⟩ : raw_string) from rfl]
    simp only []
    rw [if_neg (by rw [hany]; simp)]
    rfl
  rw [hfile]
  refine ⟨rfl, rfl, ?_, rfl⟩
  intro hre
  simp [append_result, stop_with, hre]

/-- C5 witness: the file `R"zz(never` followed by `x: int = 5;` produces
exactly the one unterminated-raw-string error at the opener. -/
theorem claim_C5_unterminated_raw_string_recovery_witness :
    (lex_file (('R' :: '"' :: (['z', 'z'] ++ '(' :: "never".toList)) ::
        ["x: int = 5;".toList]) 1).errors =
      [⟨⟨1, 1⟩, unterminated_raw_string_message, false, false⟩] :=
  (claim_C5_unterminated_raw_string_recovery ['z', 'z'] "never".toList
    ["x: int = 5;".toList] (by decide) (by decide) (by decide)).2.2.1
    (by decide)

end CppfrontSpec
